import Mathlib

/-!
Verification of the `idr-formatting` library (`src/index.ts`).

JavaScript strings are modelled as `List Char`; all definitions below are
direct translations of the TypeScript source.  `BigInt` values become `Nat`
(they are always non-negative in the source: the sign is handled separately),
and the arithmetic is exact, matching `BigInt` semantics.  JavaScript
`String.prototype.split(sep)` destructured as `[a, b = ""]` is modelled by
`beforeSep` / `afterSep` (the first two components of the split).
-/

namespace Idr

/-- JavaScript whitespace (the characters matched by `\s` / removed by
`trim` that are relevant to ASCII input): space, tab, LF, CR, VT, FF. -/
def isWs (c : Char) : Bool :=
  c == ' ' || c == '\t' || c == '\n' || c == '\r' ||
  c == Char.ofNat 11 || c == Char.ofNat 12

/-- `String.prototype.trim()`: drop whitespace from both ends. -/
def trim (l : List Char) : List Char :=
  ((l.dropWhile isWs).reverse.dropWhile isWs).reverse

/-- Numeric value of a digit character (`'0'` ↦ 0, …, `'9'` ↦ 9). -/
def digitVal (c : Char) : Nat := c.toNat - 48

/-- The non-negative integer denoted by a digit string, as read left to
right (`BigInt("1234")`). -/
def val (l : List Char) : Nat := l.foldl (fun a c => 10 * a + digitVal c) 0

/-- Helper for `natRepr`: most-significant-first decimal digits of `n`,
with `fuel` bounding the recursion depth (`fuel ≥ n` always suffices). -/
def natReprAux : Nat → Nat → List Char
  | 0, _ => []
  | _ + 1, 0 => []
  | fuel + 1, n + 1 =>
    natReprAux fuel ((n + 1) / 10) ++ [Nat.digitChar ((n + 1) % 10)]

/-- Decimal string of a natural number (`BigInt.prototype.toString()`). -/
def natRepr (n : Nat) : List Char :=
  if n = 0 then ['0'] else natReprAux n n

/-- `x || "0"` on a (possibly empty) digit string. -/
def orZero (l : List Char) : List Char := if l = [] then ['0'] else l

/-- `digits.replace(/^0+(?!$)/, "") || "0"`: strip leading zeros, keeping a
single `'0'` for the all-zero (or empty) string. -/
def normalize (l : List Char) : List Char :=
  orZero (l.dropWhile (· == '0'))

/-- `String.prototype.padStart(n, c)`. -/
def padStart (l : List Char) (n : Nat) (c : Char) : List Char :=
  List.replicate (n - l.length) c ++ l

/-- `String.prototype.padEnd(n, c)`. -/
def padEnd (l : List Char) (n : Nat) (c : Char) : List Char :=
  l ++ List.replicate (n - l.length) c

/-- The text before the first occurrence of `sep` (`split(sep)[0]`). -/
def beforeSep (sep : Char) (l : List Char) : List Char :=
  l.takeWhile (· ≠ sep)

/-- The text after the first occurrence of `sep` (empty if `sep` is absent).
`beforeSep sep (afterSep sep l)` is `split(sep)[1] ?? ""`. -/
def afterSep (sep : Char) (l : List Char) : List Char :=
  (l.dropWhile (· ≠ sep)).tail

/-- `keepFirstCommaOnly`: keep only the first comma; commas after it are
deleted (`s.slice(0, idx+1) + s.slice(idx+1).replace(/,/g, "")`). -/
def keepFirstCommaOnly : List Char → List Char
  | [] => []
  | c :: cs =>
    if c = ',' then c :: cs.filter (· ≠ ',')
    else c :: keepFirstCommaOnly cs

/-- Grouping loop of `groupThousandsStr`, acting on the REVERSED digit
string: after every 3 digits (counted from the right of the original
string) a `'.'` is inserted. -/
def chunkRev : List Char → List Char
  | [] => []
  | [a] => [a]
  | [a, b] => [a, b]
  | [a, b, c] => [a, b, c]
  | a :: b :: c :: d :: rest => a :: b :: c :: '.' :: chunkRev (d :: rest)

/-- `groupThousandsStr`: strip leading zeros (keeping `"0"`), then insert
Indonesian thousands separators every 3 digits from the right. -/
def groupThousandsStr (digits : List Char) : List Char :=
  (chunkRev (normalize digits).reverse).reverse

/-- Matcher for the `(\.\d{3})+$` part of the thousands-grouping regex:
one or more groups of a dot followed by exactly 3 digits. -/
def dotGroups : List Char → Bool
  | [] => false
  | [_] => false
  | [_, _] => false
  | [_, _, _] => false
  | s :: a :: b :: c :: rest =>
    s == '.' && a.isDigit && b.isDigit && c.isDigit &&
      (rest.isEmpty || dotGroups rest)

/-- The regex `/^\d{1,3}(\.\d{3})+$/` used by `formatIdr` to recognise
dot-separated thousands groups. -/
def thousandPattern (l : List Char) : Bool :=
  let h := beforeSep '.' l
  decide (1 ≤ h.length) && decide (h.length ≤ 3) && h.all Char.isDigit &&
    dotGroups (l.drop h.length)

/-- `applyFixedDecimals`: round/pad the `(integer digits, decimal digits)`
pair to exactly `decimals` decimal digits, using `BigInt` arithmetic.
`decimals` is a `Nat` (the claims concern non-negative integer counts; the
source collapses negative values to the `decimals <= 0` branch as well). -/
def applyFixedDecimals (intDigits decDigits : List Char) (decimals : Nat) :
    List Char × List Char :=
  -- const cleanI = (intDigits || "0").replace(/\D/g, "") || "0"
  let cleanI := orZero ((orZero intDigits).filter Char.isDigit)
  -- const cleanD = (decDigits || "").replace(/\D/g, "")
  let cleanD := decDigits.filter Char.isDigit
  if decimals = 0 then
    -- carry when the first decimal digit exists and is ≥ 5
    let carry : Nat :=
      match cleanD with
      | [] => 0
      | c :: _ => if 5 ≤ digitVal c then 1 else 0
    (natRepr (val cleanI + carry), [])
  else if cleanD.length = decimals then (cleanI, cleanD)
  else if cleanD.length < decimals then
    (cleanI, padEnd cleanD decimals '0')
  else
    -- cleanD is longer than requested → rounding
    let keep := cleanD.take decimals
    let next := cleanD.getD decimals '0'
    if digitVal next < 5 then (cleanI, keep)
    else
      -- increment integer+decimal as a single BigInt
      let inc := padStart (natRepr (val (cleanI ++ keep) + 1))
        (cleanI.length + keep.length) '0'
      let newI := orZero (inc.take (inc.length - decimals))
      let newD := inc.drop (inc.length - decimals)
      (newI, newD)

/-- Exact fixed-point value: `sign` (1 or −1), `units` (all digits as one
integer; always non-negative, modelled as `Nat`), `scale` (number of
decimal digits). -/
structure FixedIdr where
  sign : Int
  units : Nat
  scale : Nat
deriving DecidableEq, Repr

/-- `FixedIdr.toString()`: canonical decimal string with `'.'` as the
decimal separator. -/
def fixedToString (fx : FixedIdr) : List Char :=
  let sgn : List Char := if fx.sign = -1 then ['-'] else []
  if fx.scale = 0 then sgn ++ natRepr fx.units
  else
    let s := padStart (natRepr fx.units) (fx.scale + 1) '0'
    let head := s.take (s.length - fx.scale)
    let tail := s.drop (s.length - fx.scale)
    sgn ++ head ++ '.' :: tail

/-- `makeFixed`: fixed-point factory. -/
def makeFixed (sign : Int) (intDigits decDigits : List Char) : FixedIdr :=
  let i := normalize intDigits
  let d := decDigits.filter Char.isDigit
  { sign := sign, units := val (i ++ d), scale := d.length }

/-- `FormatIdrOptions`: `decimals = none` is `"auto"`, `some n` forces
exactly `n` decimal digits. -/
structure FormatIdrOptions where
  decimals : Option Nat := none
  padZeros : Bool := false

/-- The inner `finish` helper of `formatIdr`: apply the decimals policy to
the classified `(integer digits, decimal digits)` pair.  An absent decimal
part (`undefined`) and an empty one (`""`) behave identically in the
source (`!rawDecimals`, `rawDecimals ?? ""`), so both are `[]` here. -/
def finishFmt (o : FormatIdrOptions) (intDigits rawDecimals : List Char) :
    List Char :=
  match o.decimals with
  | none =>
    let iFmt := groupThousandsStr intDigits
    if rawDecimals = [] then iFmt
    else
      iFmt ++ ',' ::
        (if o.padZeros then padEnd rawDecimals 2 '0' else rawDecimals)
  | some n =>
    let p := applyFixedDecimals intDigits rawDecimals n
    let iFmt := groupThousandsStr p.1
    if 0 < n then iFmt ++ ',' :: p.2 else iFmt

/-- Branch structure of `formatIdr` on the (trimmed, minus-stripped)
magnitude text: returns `(integer digits, decimal digits)` exactly as the
source hands them to `finish` (`[]` decimal digits for the `finish(x)`
calls with no second argument). -/
def classifyFmt (str1 : List Char) : List Char × List Char :=
  if ',' ∈ str1 then
    -- comma present → comma is the decimal separator
    let only := str1.filter (fun c => c.isDigit || c == ',')
    let raw := keepFirstCommaOnly only
    let intPart := beforeSep ',' raw
    let decPart := beforeSep ',' (afterSep ',' raw)
    (orZero (intPart.filter Char.isDigit), decPart.filter Char.isDigit)
  else if '.' ∈ str1 then
    -- dot(s) present and no comma → thousands vs decimal heuristic
    let s := str1.filter (fun c => !isWs c)
    if thousandPattern s then
      (orZero (s.filter (· ≠ '.')), [])
    else
      -- first "." treated as decimal point: split(".", 2)
      let left := beforeSep '.' s
      let right := beforeSep '.' (afterSep '.' s)
      (orZero (left.filter Char.isDigit), right.filter Char.isDigit)
  else
    -- plain digit run
    (orZero (str1.filter Char.isDigit), [])

/-- Body of `formatIdr` on a non-empty string input: trim, strip and
remember a leading minus, classify, apply the decimals policy, re-attach
the minus. -/
def formatIdrStr (s : List Char) (o : FormatIdrOptions) : List Char :=
  let str0 := trim s
  let negative := str0.head? = some '-'
  let str1 := if negative then str0.tail else str0
  let p := classifyFmt str1
  let display := finishFmt o p.1 p.2
  if negative then '-' :: display else display

/-- `formatIdr` input: `null`/`undefined`, a string, or a `FixedIdr`.
(A JS `number` input is first stringified by the source and then follows
the string path, so it is subsumed by `str`.) -/
inductive IdrValue where
  | none
  | str (s : List Char)
  | fixed (fx : FixedIdr)

/-- `formatIdr(value, options)`. A `FixedIdr` is converted to its
canonical decimal string and re-enters the string path (the source's
recursive call, inlined; `fixedToString` is never empty so the empty-string
guard of the recursive call is kept for faithfulness). -/
def formatIdr (v : IdrValue) (o : FormatIdrOptions) : List Char :=
  match v with
  | .none => []
  | .str s => if s = [] then [] else formatIdrStr s o
  | .fixed fx =>
    if fixedToString fx = [] then [] else formatIdrStr (fixedToString fx) o

/-- Shared pipeline of `parseIdr`: returns `(isNegative, intDigits,
decDigits)` or `none` for invalid input.  `none` input models `null`. -/
def parseCore (v : Option (List Char)) :
    Option (Bool × List Char × List Char) :=
  match v with
  | none => none
  | some s =>
    if s = [] then none
    else
      let s0 := trim s
      let isNegative := s0.head? = some '-'
      let s1 := if isNegative then s0.tail else s0
      -- s = s.replace(/[^0-9.,]/g, "")
      let s2 := s1.filter (fun c => c.isDigit || c == '.' || c == ',')
      if s2 = [] then none
      else
        let s3 := keepFirstCommaOnly s2
        -- s.replace(/\./g, "").replace(",", "."): s3 has at most one
        -- comma, so mapping every comma to '.' equals replacing the first.
        let normalized :=
          (s3.filter (· ≠ '.')).map (fun c => if c = ',' then '.' else c)
        if normalized = [] ∨ normalized = ['.'] then none
        else
          let intRaw := beforeSep '.' normalized
          let decRaw := beforeSep '.' (afterSep '.' normalized)
          let intDigits := orZero (intRaw.filter Char.isDigit)
          let decDigits := decRaw.filter Char.isDigit
          some (isNegative, intDigits, decDigits)

/-- `parseIdr(str, { mode: "fixed" })`. -/
def parseIdrFixed (v : Option (List Char)) : Option FixedIdr :=
  match parseCore v with
  | none => none
  | some (neg, i, d) => some (makeFixed (if neg then -1 else 1) i d)

/-- `parseIdr(str)` (default `"number"` mode).  The source builds a JS
`Number` from the digit parts; here the exact rational value of that
decimal text is returned.  (The engine additionally rounds to the nearest
IEEE double and yields `null` when the magnitude overflows to infinity;
the values appearing in the claims are small integers, for which the
double is exact.) -/
def parseIdrNum (v : Option (List Char)) : Option ℚ :=
  match parseCore v with
  | none => none
  | some (neg, i, d) =>
    some ((if neg then (-1 : ℚ) else 1) *
      ((val i : ℚ) + (val d : ℚ) / 10 ^ d.length))

/-- Abbreviation for the grouping body of `groupThousandsStr` applied to an
already-normalized digit string. -/
def chunksOf3 (m : List Char) : List Char := (chunkRev m.reverse).reverse

/-- The round-half-up carry at decimal position `n`: 1 exactly when a digit
exists at position `n` and is at least 5. -/
def roundHalfUpCarry (d : List Char) (n : Nat) : Nat :=
  if n < d.length ∧ 5 ≤ digitVal (d.getD n '0') then 1 else 0

/-- Comparison definition for the parse-path claim, following the spec
wording: strip and remember a leading minus, clean to `[0-9.,]`, remove
ALL dots unconditionally, and treat the first comma (if any) as the
decimal marker — digits before it are the integer digits, digits after it
the decimal digits.  Text with no digits after cleaning parses to `none`.
The thousands-vs-decimal-dot heuristic of the formatter never appears. -/
def parseIdrSpec (v : Option (List Char)) :
    Option (Bool × List Char × List Char) :=
  match v with
  | none => none
  | some s =>
    let s0 := trim s
    let isNegative := s0.head? = some '-'
    let s1 := if isNegative then s0.tail else s0
    let cleaned := s1.filter (fun c => c.isDigit || c == '.' || c == ',')
    let dotless := cleaned.filter (· ≠ '.')
    if cleaned.filter Char.isDigit = [] then none
    else
      some (isNegative, orZero ((beforeSep ',' dotless).filter Char.isDigit),
        (afterSep ',' dotless).filter Char.isDigit)

/-! ### Basic facts about digit characters and `val` -/

theorem digitVal_zero_char : digitVal '0' = 0 := by decide

theorem digitChar_isDigit {d : Nat} (h : d < 10) :
    (Nat.digitChar d).isDigit = true := by
  interval_cases d <;> decide

theorem digitVal_digitChar {d : Nat} (h : d < 10) :
    digitVal (Nat.digitChar d) = d := by
  interval_cases d <;> decide

theorem digitChar_ne_zero_char {d : Nat} (h : d < 10) (h0 : d ≠ 0) :
    Nat.digitChar d ≠ '0' := by
  interval_cases d
  · exact absurd rfl h0
  all_goals decide

theorem digit_ne_comma {c : Char} (h : c.isDigit = true) : c ≠ ',' := by
  intro e; rw [e] at h; exact absurd h (by decide)

theorem digit_ne_dot {c : Char} (h : c.isDigit = true) : c ≠ '.' := by
  intro e; rw [e] at h; exact absurd h (by decide)

theorem digit_ne_minus {c : Char} (h : c.isDigit = true) : c ≠ '-' := by
  intro e; rw [e] at h; exact absurd h (by decide)

theorem digit_not_ws {c : Char} (h : c.isDigit = true) : isWs c = false := by
  rcases Bool.eq_false_or_eq_true (isWs c) with hw | hw
  · simp only [isWs, Bool.or_eq_true, beq_iff_eq] at hw
    rcases hw with ((((e | e) | e) | e) | e) | e <;> rw [e] at h <;>
      exact absurd h (by decide)
  · exact hw

theorem ws_not_digit {c : Char} (h : isWs c = true) : c.isDigit = false := by
  rcases Bool.eq_false_or_eq_true c.isDigit with hd | hd
  · exact absurd (digit_not_ws hd) (by simp [h])
  · exact hd

theorem foldl_val (l : List Char) :
    ∀ a, l.foldl (fun a c => 10 * a + digitVal c) a =
      a * 10 ^ l.length + val l := by
  induction l with
  | nil => intro a; simp [val]
  | cons c t ih =>
    intro a
    have h2 : val (c :: t) = (10 * 0 + digitVal c) * 10 ^ t.length + val t :=
      ih (10 * 0 + digitVal c)
    simp only [List.foldl_cons, List.length_cons]
    rw [ih, h2]
    ring

theorem val_append (a b : List Char) :
    val (a ++ b) = val a * 10 ^ b.length + val b := by
  show (a ++ b).foldl _ 0 = _
  rw [List.foldl_append]
  exact foldl_val b _

theorem val_concat (l : List Char) (c : Char) :
    val (l ++ [c]) = 10 * val l + digitVal c := by
  rw [val_append]
  show val l * 10 ^ 1 + val [c] = _
  have : val [c] = digitVal c := by
    show 10 * 0 + digitVal c = digitVal c
    omega
  rw [this]; ring

theorem val_cons_zero (l : List Char) : val ('0' :: l) = val l := by
  show l.foldl _ (10 * 0 + digitVal '0') = l.foldl _ 0
  norm_num [digitVal_zero_char]

theorem val_all_zero {l : List Char} (h : ∀ c ∈ l, c = '0') : val l = 0 := by
  induction l with
  | nil => rfl
  | cons c t ih =>
    have hc : c = '0' := h c (by simp)
    subst hc
    rw [val_cons_zero]
    exact ih (fun c hc => h c (by simp [hc]))

theorem val_replicate_zero (k : Nat) : val (List.replicate k '0') = 0 :=
  val_all_zero (fun _ hc => (List.eq_of_mem_replicate hc))

theorem val_zeros_append (k : Nat) (l : List Char) :
    val (List.replicate k '0' ++ l) = val l := by
  rw [val_append, val_replicate_zero]; ring

theorem val_padStart (l : List Char) (n : Nat) :
    val (padStart l n '0') = val l := val_zeros_append _ _

/-! ### `natRepr` is a correct decimal rendering -/

theorem natReprAux_zero (fuel : Nat) : natReprAux fuel 0 = [] := by
  cases fuel <;> rfl

theorem natReprAux_spec :
    ∀ fuel n, n < 10 ^ fuel →
      val (natReprAux fuel n) = n ∧
      (∀ c ∈ natReprAux fuel n, c.isDigit = true) ∧
      (n ≠ 0 → natReprAux fuel n ≠ [] ∧
        (natReprAux fuel n).head? ≠ some '0') := by
  intro fuel
  induction fuel with
  | zero =>
    intro n h
    have : n = 0 := by simpa using Nat.lt_one_iff.mp h
    subst this
    exact ⟨rfl, by simp [natReprAux], by simp⟩
  | succ f ih =>
    intro n h
    match n with
    | 0 => exact ⟨rfl, by simp [natReprAux], by simp⟩
    | n + 1 =>
      have hq : (n + 1) / 10 < 10 ^ f := by
        rw [Nat.div_lt_iff_lt_mul (by norm_num)]
        calc n + 1 < 10 ^ (f + 1) := h
        _ = 10 ^ f * 10 := by ring
      have hr : (n + 1) % 10 < 10 := Nat.mod_lt _ (by norm_num)
      obtain ⟨hv, hd, hnz⟩ := ih ((n + 1) / 10) hq
      have hshow : natReprAux (f + 1) (n + 1) =
          natReprAux f ((n + 1) / 10) ++ [Nat.digitChar ((n + 1) % 10)] := rfl
      refine ⟨?_, ?_, ?_⟩
      · rw [hshow, val_concat, hv, digitVal_digitChar hr]
        omega
      · intro c hc
        rw [hshow, List.mem_append] at hc
        rcases hc with hc | hc
        · exact hd c hc
        · simp only [List.mem_singleton] at hc
          rw [hc]; exact digitChar_isDigit hr
      · intro _
        rw [hshow]
        by_cases hq0 : (n + 1) / 10 = 0
        · have hlt : n + 1 < 10 := by
            by_contra hge
            have h10 : 10 ≤ n + 1 := by omega
            have := Nat.div_le_div_right (c := 10) h10
            simp [Nat.div_self] at this
            omega
          rw [hq0, natReprAux_zero]
          have hmod : (n + 1) % 10 = n + 1 := Nat.mod_eq_of_lt hlt
          constructor
          · simp
          · simp only [List.nil_append, List.head?_cons, ne_eq,
              Option.some.injEq]
            rw [hmod]
            exact digitChar_ne_zero_char hlt (by omega)
        · obtain ⟨hne, hhd⟩ := hnz hq0
          match hrec : natReprAux f ((n + 1) / 10) with
          | [] => exact absurd hrec hne
          | a :: t =>
            rw [hrec] at hhd
            refine ⟨by simp, ?_⟩
            simpa using hhd

theorem natRepr_val (n : Nat) : val (natRepr n) = n := by
  unfold natRepr
  split
  · simp_all [val, digitVal_zero_char]
  · exact (natReprAux_spec n n (Nat.lt_pow_self (by norm_num) n)).1

theorem natRepr_digits (n : Nat) : ∀ c ∈ natRepr n, c.isDigit = true := by
  unfold natRepr
  split
  · intro c hc; simp only [List.mem_singleton] at hc; rw [hc]; decide
  · exact (natReprAux_spec n n (Nat.lt_pow_self (by norm_num) n)).2.1

theorem natRepr_ne_nil (n : Nat) : natRepr n ≠ [] := by
  unfold natRepr
  split
  · simp
  · exact ((natReprAux_spec n n (Nat.lt_pow_self (by norm_num) n)).2.2
      (by assumption)).1

theorem natRepr_head (n : Nat) (h : n ≠ 0) :
    (natRepr n).head? ≠ some '0' := by
  unfold natRepr
  split
  · exact absurd (by assumption) h
  · exact ((natReprAux_spec n n (Nat.lt_pow_self (by norm_num) n)).2.2 h).2

/-! ### `normalize`, `orZero` and `padEnd` -/

theorem dropWhile_eq_self_of_head {p : Char → Bool} {l : List Char}
    (h : ∀ c, l.head? = some c → p c = false) : l.dropWhile p = l := by
  cases l with
  | nil => rfl
  | cons c t =>
    rw [List.dropWhile_cons, h c rfl]
    simp

theorem head_dropWhile_false {p : Char → Bool} :
    ∀ (l : List Char) (c : Char),
      (l.dropWhile p).head? = some c → p c = false := by
  intro l
  induction l with
  | nil => intro c hc; simp [List.dropWhile] at hc
  | cons a t ih =>
    intro c hc
    rw [List.dropWhile_cons] at hc
    by_cases hp : p a
    · rw [if_pos hp] at hc; exact ih c hc
    · rw [if_neg hp] at hc
      simp only [List.head?_cons, Option.some.injEq] at hc
      rw [← hc]
      exact Bool.eq_false_iff.mpr hp

theorem normalize_ne_nil (l : List Char) : normalize l ≠ [] := by
  unfold normalize orZero
  split
  · simp
  · assumption

theorem val_dropWhile_zero (l : List Char) :
    val (l.dropWhile (· == '0')) = val l := by
  induction l with
  | nil => rfl
  | cons c t ih =>
    rw [List.dropWhile_cons]
    by_cases hc : (c == '0') = true
    · have : c = '0' := by simpa using hc
      subst this
      rw [if_pos (by decide), val_cons_zero]
      exact ih
    · rw [if_neg (by simp_all)]

theorem val_normalize (l : List Char) : val (normalize l) = val l := by
  unfold normalize orZero
  split
  · have hall : ∀ c ∈ l, c = '0' := by
      intro c hc
      have hsplit := List.takeWhile_append_dropWhile (p := (· == '0')) (l := l)
      rw [(by assumption : l.dropWhile (· == '0') = []), List.append_nil]
        at hsplit
      rw [← hsplit] at hc
      simpa using List.mem_takeWhile_imp hc
    rw [val_all_zero hall]
    decide
  · rw [← val_dropWhile_zero l]

theorem normalize_mem {l : List Char} :
    ∀ c ∈ normalize l, c ∈ l ∨ c = '0' := by
  intro c hc
  unfold normalize orZero at hc
  split at hc
  · right; simpa using hc
  · left; exact (List.dropWhile_sublist _).mem hc

theorem normalize_digits {l : List Char} (h : ∀ c ∈ l, c.isDigit = true) :
    ∀ c ∈ normalize l, c.isDigit = true := by
  intro c hc
  rcases normalize_mem c hc with hm | hm
  · exact h c hm
  · rw [hm]; decide

theorem normalize_head (l : List Char) :
    normalize l = ['0'] ∨ (normalize l).head? ≠ some '0' := by
  unfold normalize orZero
  split
  · left; rfl
  · right
    intro hc
    have := head_dropWhile_false (p := (· == '0')) l '0' hc
    simp at this

theorem normalize_eq_self_of_head {l : List Char} (hne : l ≠ [])
    (h : l.head? ≠ some '0') : normalize l = l := by
  unfold normalize
  rw [dropWhile_eq_self_of_head
    (by
      intro c hc
      rcases hh : l.head? with _ | d
      · rw [hh] at hc; exact absurd hc (by simp)
      · rw [hh] at hc
        simp only [Option.some.injEq] at hc
        subst hc
        simp only [beq_eq_false_iff_ne, ne_eq]
        intro he
        subst he
        exact h hh)]
  unfold orZero
  rw [if_neg hne]

theorem normalize_idem (l : List Char) :
    normalize (normalize l) = normalize l := by
  rcases normalize_head l with h | h
  · rw [h]; rfl
  · exact normalize_eq_self_of_head (normalize_ne_nil l) h

theorem normalize_natRepr (n : Nat) : normalize (natRepr n) = natRepr n := by
  by_cases h : n = 0
  · subst h; rfl
  · exact normalize_eq_self_of_head (natRepr_ne_nil n) (natRepr_head n h)

theorem orZero_of_ne_nil {l : List Char} (h : l ≠ []) : orZero l = l := by
  unfold orZero; rw [if_neg h]

theorem orZero_digits {l : List Char} (h : ∀ c ∈ l, c.isDigit = true) :
    ∀ c ∈ orZero l, c.isDigit = true := by
  unfold orZero
  split
  · intro c hc; simp only [List.mem_singleton] at hc; rw [hc]; decide
  · exact h

theorem orZero_ne_nil (l : List Char) : orZero l ≠ [] := by
  unfold orZero
  split
  · simp
  · assumption

theorem filter_digits_self {l : List Char} (h : ∀ c ∈ l, c.isDigit = true) :
    l.filter Char.isDigit = l := List.filter_eq_self.mpr h

theorem padEnd_digits {l : List Char} (n : Nat)
    (h : ∀ c ∈ l, c.isDigit = true) :
    ∀ c ∈ padEnd l n '0', c.isDigit = true := by
  intro c hc
  rcases List.mem_append.mp hc with hm | hm
  · exact h c hm
  · rw [List.eq_of_mem_replicate hm]; decide

theorem padEnd_length (l : List Char) (n : Nat) :
    (padEnd l n '0').length = max l.length n := by
  simp only [padEnd, List.length_append, List.length_replicate]
  omega

theorem padEnd_of_le {l : List Char} {n : Nat} (h : n ≤ l.length) :
    padEnd l n '0' = l := by
  simp only [padEnd, Nat.sub_eq_zero_of_le h, List.replicate_zero,
    List.append_nil]

/-! ### Structure of `chunkRev` / `groupThousandsStr` -/

theorem groupThousandsStr_eq (x : List Char) :
    groupThousandsStr x = chunksOf3 (normalize x) := rfl

theorem chunkRev_short : ∀ l : List Char, l.length ≤ 3 → chunkRev l = l := by
  intro l h
  match l with
  | [] => rfl
  | [a] => rfl
  | [a, b] => rfl
  | [a, b, c] => rfl
  | a :: b :: c :: d :: rest => simp at h

theorem chunkRev_mem :
    ∀ l : List Char, ∀ c ∈ chunkRev l, c ∈ l ∨ c = '.' := by
  intro l
  induction l using chunkRev.induct with
  | case1 => intro c hc; simp [chunkRev] at hc
  | case2 a => intro c hc; left; simpa [chunkRev] using hc
  | case3 a b => intro c hc; left; simpa [chunkRev] using hc
  | case4 a b c => intro e he; left; simpa [chunkRev] using he
  | case5 a b c d rest ih =>
    intro e he
    have hshow : chunkRev (a :: b :: c :: d :: rest) =
        a :: b :: c :: '.' :: chunkRev (d :: rest) := rfl
    rw [hshow] at he
    simp only [List.mem_cons] at he
    rcases he with h | h | h | h | h
    · left; simp [h]
    · left; simp [h]
    · left; simp [h]
    · right; exact h
    · rcases ih e h with hm | hm
      · left; simp only [List.mem_cons] at hm ⊢; tauto
      · right; exact hm

theorem chunkRev_filter {p : Char → Bool} (hdot : p '.' = false) :
    ∀ l : List Char, (∀ c ∈ l, p c = true) →
      (chunkRev l).filter p = l := by
  intro l
  induction l using chunkRev.induct with
  | case1 => intro _; rfl
  | case2 a =>
    intro hmem
    show List.filter p [a] = [a]
    exact List.filter_eq_self.mpr hmem
  | case3 a b =>
    intro hmem
    show List.filter p [a, b] = [a, b]
    exact List.filter_eq_self.mpr hmem
  | case4 a b c =>
    intro hmem
    show List.filter p [a, b, c] = [a, b, c]
    exact List.filter_eq_self.mpr hmem
  | case5 a b c d rest ih =>
    intro hmem
    have hshow : chunkRev (a :: b :: c :: d :: rest) =
        a :: b :: c :: '.' :: chunkRev (d :: rest) := rfl
    rw [hshow]
    rw [List.filter_cons_of_pos (hmem a (by simp)),
      List.filter_cons_of_pos (hmem b (by simp)),
      List.filter_cons_of_pos (hmem c (by simp)),
      List.filter_cons_of_neg (by simp [hdot]),
      ih (fun e he => hmem e (by simp [he]))]

theorem chunkRev_ne_nil {l : List Char} (h : l ≠ []) : chunkRev l ≠ [] := by
  match l with
  | [] => exact absurd rfl h
  | [a] => simp [chunkRev]
  | [a, b] => simp [chunkRev]
  | [a, b, c] => simp [chunkRev]
  | a :: b :: c :: d :: rest =>
    have hshow : chunkRev (a :: b :: c :: d :: rest) =
        a :: b :: c :: '.' :: chunkRev (d :: rest) := rfl
    rw [hshow]; simp

theorem chunksOf3_mem {m : List Char} :
    ∀ c ∈ chunksOf3 m, c ∈ m ∨ c = '.' := by
  intro c hc
  unfold chunksOf3 at hc
  rw [List.mem_reverse] at hc
  rcases chunkRev_mem m.reverse c hc with h | h
  · left; exact List.mem_reverse.mp h
  · right; exact h

theorem chunksOf3_filter {p : Char → Bool} {m : List Char}
    (hdot : p '.' = false) (hmem : ∀ c ∈ m, p c = true) :
    (chunksOf3 m).filter p = m := by
  unfold chunksOf3
  rw [List.filter_reverse,
    chunkRev_filter hdot m.reverse (fun c hc => hmem c (List.mem_reverse.mp hc)),
    List.reverse_reverse]

theorem chunksOf3_ne_nil {m : List Char} (h : m ≠ []) : chunksOf3 m ≠ [] := by
  unfold chunksOf3
  intro he
  rw [List.reverse_eq_nil_iff] at he
  exact chunkRev_ne_nil (fun hh => h (by simpa using hh)) he

theorem chunksOf3_short {m : List Char} (h : m.length ≤ 3) :
    chunksOf3 m = m := by
  unfold chunksOf3
  rw [chunkRev_short m.reverse (by simpa using h), List.reverse_reverse]

theorem chunksOf3_step {m : List Char} (h : 4 ≤ m.length) :
    chunksOf3 m =
      chunksOf3 (m.take (m.length - 3)) ++ '.' :: m.drop (m.length - 3) := by
  obtain ⟨a, b, c, d, rest, hrev⟩ :
      ∃ a b c d rest, m.reverse = a :: b :: c :: d :: rest := by
    have hlen : 4 ≤ m.reverse.length := by simpa using h
    match hm : m.reverse with
    | [] => rw [hm] at hlen; simp at hlen
    | [a] => rw [hm] at hlen; simp at hlen
    | [a, b] => rw [hm] at hlen; simp at hlen
    | [a, b, c] => rw [hm] at hlen; simp at hlen
    | a :: b :: c :: d :: rest => exact ⟨a, b, c, d, rest, rfl⟩
  have hm : m = (d :: rest).reverse ++ [c, b, a] := by
    have := congrArg List.reverse hrev
    rw [List.reverse_reverse] at this
    rw [this]
    simp
  have hlen3 : (d :: rest).reverse.length = m.length - 3 := by
    rw [hm]
    simp
  have hlen' : ((d :: rest).reverse ++ [c, b, a]).length - 3 =
      (d :: rest).reverse.length := by simp
  have htake : m.take (m.length - 3) = (d :: rest).reverse := by
    rw [hm, hlen']
    exact List.take_left _ _
  have hdrop : m.drop (m.length - 3) = [c, b, a] := by
    rw [hm, hlen']
    exact List.drop_left _ _
  have hshow : chunkRev (a :: b :: c :: d :: rest) =
      a :: b :: c :: '.' :: chunkRev (d :: rest) := rfl
  unfold chunksOf3
  rw [hrev, hshow, htake, hdrop, List.reverse_reverse]
  simp

/-! ### The thousands-grouping pattern -/

theorem takeWhile_append_all {p : Char → Bool} {g t : List Char}
    (hall : ∀ c ∈ g, p c = true) {x : Char} (hx : p x = false) :
    (g ++ x :: t).takeWhile p = g := by
  induction g with
  | nil => simp [List.takeWhile_cons, hx]
  | cons c cs ih =>
    rw [List.cons_append, List.takeWhile_cons, hall c (by simp)]
    simp only [if_true]
    rw [ih (fun e he => hall e (by simp [he]))]

theorem takeWhile_append_stop {p : Char → Bool} {g : List Char}
    (h : g.dropWhile p ≠ []) (t : List Char) :
    (g ++ t).takeWhile p = g.takeWhile p := by
  induction g with
  | nil => exact absurd rfl h
  | cons c cs ih =>
    rw [List.cons_append, List.takeWhile_cons, List.takeWhile_cons]
    by_cases hp : p c = true
    · rw [if_pos hp, if_pos hp]
      rw [List.dropWhile_cons, if_pos hp] at h
      rw [ih h]
    · rw [if_neg hp, if_neg hp]

theorem length_takeWhile_le (p : Char → Bool) (l : List Char) :
    (l.takeWhile p).length ≤ l.length :=
  (List.takeWhile_sublist p).length_le

theorem dotGroups_head : ∀ {r : List Char}, dotGroups r = true →
    ∃ t, r = '.' :: t := by
  intro r hr
  match r with
  | [] => simp [dotGroups] at hr
  | [a] => simp [dotGroups] at hr
  | [a, b] => simp [dotGroups] at hr
  | [a, b, c] => simp [dotGroups] at hr
  | s :: a :: b :: c :: rest =>
    have hshow : dotGroups (s :: a :: b :: c :: rest) =
        (s == '.' && a.isDigit && b.isDigit && c.isDigit &&
          (rest.isEmpty || dotGroups rest)) := rfl
    rw [hshow] at hr
    simp only [Bool.and_eq_true, beq_iff_eq] at hr
    exact ⟨a :: b :: c :: rest, by rw [hr.1.1.1.1]⟩

theorem dotGroups_append {x y z : Char}
    (hx : x.isDigit = true) (hy : y.isDigit = true) (hz : z.isDigit = true) :
    ∀ r : List Char, dotGroups r = true →
      dotGroups (r ++ '.' :: [x, y, z]) = true := by
  intro r
  induction r using dotGroups.induct with
  | case1 => intro hr; simp [dotGroups] at hr
  | case2 a => intro hr; simp [dotGroups] at hr
  | case3 a b => intro hr; simp [dotGroups] at hr
  | case4 a b c => intro hr; simp [dotGroups] at hr
  | case5 s a b c rest ih =>
    intro hr
    have hshow : dotGroups (s :: a :: b :: c :: rest) =
        (s == '.' && a.isDigit && b.isDigit && c.isDigit &&
          (rest.isEmpty || dotGroups rest)) := rfl
    rw [hshow] at hr
    simp only [Bool.and_eq_true, Bool.or_eq_true, beq_iff_eq] at hr
    obtain ⟨⟨⟨⟨hs, ha⟩, hb⟩, hc⟩, hrest⟩ := hr
    have hshow2 : dotGroups ((s :: a :: b :: c :: rest) ++ '.' :: [x, y, z]) =
        (s == '.' && a.isDigit && b.isDigit && c.isDigit &&
          ((rest ++ '.' :: [x, y, z]).isEmpty ||
            dotGroups (rest ++ '.' :: [x, y, z]))) := rfl
    rw [hshow2]
    simp only [Bool.and_eq_true, Bool.or_eq_true, beq_iff_eq]
    refine ⟨⟨⟨⟨hs, ha⟩, hb⟩, hc⟩, Or.inr ?_⟩
    rcases hrest with hrest | hrest
    · have : rest = [] := by simpa using hrest
      subst this
      simp only [List.nil_append]
      show dotGroups ['.', x, y, z] = true
      have : dotGroups ['.', x, y, z] =
          (('.' : Char) == '.' && x.isDigit && y.isDigit && z.isDigit &&
            (([] : List Char).isEmpty || dotGroups [])) := rfl
      rw [this]
      simp [hx, hy, hz]
    · exact ih hrest

theorem thousandPattern_iff {l : List Char} :
    thousandPattern l = true ↔
      1 ≤ (beforeSep '.' l).length ∧ (beforeSep '.' l).length ≤ 3 ∧
      (∀ c ∈ beforeSep '.' l, c.isDigit = true) ∧
      dotGroups (l.drop (beforeSep '.' l).length) = true := by
  simp only [thousandPattern, Bool.and_eq_true, decide_eq_true_eq,
    List.all_eq_true]
  tauto

theorem thousandPattern_extend {g : List Char} {x y z : Char}
    (hx : x.isDigit = true) (hy : y.isDigit = true) (hz : z.isDigit = true)
    (hcase : thousandPattern g = true ∨
      (1 ≤ g.length ∧ g.length ≤ 3 ∧ ∀ c ∈ g, c.isDigit = true)) :
    thousandPattern (g ++ '.' :: [x, y, z]) = true := by
  rcases hcase with hp | ⟨h1, h3, hd⟩
  · rw [thousandPattern_iff] at hp
    obtain ⟨hp1, hp3, hpd, hpg⟩ := hp
    have hdotmem : '.' ∈ g := by
      obtain ⟨t, ht⟩ := dotGroups_head hpg
      have : '.' ∈ g.drop (beforeSep '.' g).length := by rw [ht]; simp
      exact (List.drop_sublist _ _).mem this
    have hstop : g.dropWhile (· ≠ '.') ≠ [] := by
      intro he
      have := List.takeWhile_append_dropWhile (p := (· ≠ '.')) (l := g)
      rw [he, List.append_nil] at this
      have hmem := this ▸ hdotmem
      have := List.mem_takeWhile_imp hmem
      simp at this
    have hbefore : beforeSep '.' (g ++ '.' :: [x, y, z]) = beforeSep '.' g := by
      unfold beforeSep
      exact takeWhile_append_stop hstop _
    rw [thousandPattern_iff, hbefore]
    refine ⟨hp1, hp3, hpd, ?_⟩
    have hle : (beforeSep '.' g).length ≤ g.length := length_takeWhile_le _ _
    rw [List.drop_append_of_le_length hle]
    exact dotGroups_append hx hy hz _ hpg
  · have hbefore : beforeSep '.' (g ++ '.' :: [x, y, z]) = g := by
      unfold beforeSep
      exact takeWhile_append_all
        (fun c hc => by simp [digit_ne_dot (hd c hc)]) (by simp)
    rw [thousandPattern_iff, hbefore]
    refine ⟨h1, h3, hd, ?_⟩
    rw [List.drop_left]
    show dotGroups ['.', x, y, z] = true
    have : dotGroups ['.', x, y, z] =
        (('.' : Char) == '.' && x.isDigit && y.isDigit && z.isDigit &&
          (([] : List Char).isEmpty || dotGroups [])) := rfl
    rw [this]
    simp [hx, hy, hz]

theorem chunksOf3_pattern :
    ∀ (k : Nat) (m : List Char), m.length ≤ k →
      (∀ c ∈ m, c.isDigit = true) → 4 ≤ m.length →
      thousandPattern (chunksOf3 m) = true := by
  intro k
  induction k with
  | zero => intro m hk _ h4; omega
  | succ k ih =>
    intro m hk hd h4
    rw [chunksOf3_step h4]
    have hblen : (m.drop (m.length - 3)).length = 3 := by
      rw [List.length_drop]; omega
    have hbd : ∀ c ∈ m.drop (m.length - 3), c.isDigit = true :=
      fun c hc => hd c ((List.drop_sublist _ _).mem hc)
    have hfd : ∀ c ∈ m.take (m.length - 3), c.isDigit = true :=
      fun c hc => hd c ((List.take_sublist _ _).mem hc)
    have hflen : (m.take (m.length - 3)).length = m.length - 3 := by
      rw [List.length_take]; omega
    match hb : m.drop (m.length - 3) with
    | [] => rw [hb] at hblen; simp at hblen
    | [x] => rw [hb] at hblen; simp at hblen
    | [x, y] => rw [hb] at hblen; simp at hblen
    | x :: y :: z :: w :: t => rw [hb] at hblen; simp at hblen
    | [x, y, z] =>
      have hx : x.isDigit = true := hbd x (by rw [hb]; simp)
      have hy : y.isDigit = true := hbd y (by rw [hb]; simp)
      have hz : z.isDigit = true := hbd z (by rw [hb]; simp)
      by_cases hsmall : m.length - 3 ≤ 3
      · rw [chunksOf3_short (by omega : (m.take (m.length - 3)).length ≤ 3)]
        exact thousandPattern_extend hx hy hz
          (Or.inr ⟨by omega, by omega, hfd⟩)
      · exact thousandPattern_extend hx hy hz
          (Or.inl (ih (m.take (m.length - 3)) (by omega) hfd (by omega)))

theorem chunksOf3_has_dot {m : List Char} (h4 : 4 ≤ m.length) :
    '.' ∈ chunksOf3 m := by
  rw [chunksOf3_step h4]
  simp

/-! ### `groupThousandsStr` facts -/

theorem group_mem {x : List Char} (hd : ∀ c ∈ x, c.isDigit = true) :
    ∀ c ∈ groupThousandsStr x, c.isDigit = true ∨ c = '.' := by
  intro c hc
  rw [groupThousandsStr_eq] at hc
  rcases chunksOf3_mem c hc with hm | hm
  · left; exact normalize_digits hd c hm
  · right; exact hm

theorem group_ne_nil (x : List Char) : groupThousandsStr x ≠ [] := by
  rw [groupThousandsStr_eq]
  exact chunksOf3_ne_nil (normalize_ne_nil x)

theorem group_no_comma {x : List Char} (hd : ∀ c ∈ x, c.isDigit = true) :
    ',' ∉ groupThousandsStr x := by
  intro hmem
  rcases group_mem hd ',' hmem with h | h
  · exact absurd h (by decide)
  · exact absurd h (by decide)

theorem group_pattern {x : List Char} (hd : ∀ c ∈ x, c.isDigit = true)
    (h4 : 4 ≤ (normalize x).length) :
    thousandPattern (groupThousandsStr x) = true := by
  rw [groupThousandsStr_eq]
  exact chunksOf3_pattern (normalize x).length _ le_rfl
    (normalize_digits hd) h4

theorem group_has_dot {x : List Char} (h4 : 4 ≤ (normalize x).length) :
    '.' ∈ groupThousandsStr x := by
  rw [groupThousandsStr_eq]
  exact chunksOf3_has_dot h4

theorem group_short {x : List Char} (h3 : (normalize x).length ≤ 3) :
    groupThousandsStr x = normalize x := by
  rw [groupThousandsStr_eq]
  exact chunksOf3_short h3

theorem group_filter_digits {x : List Char}
    (hd : ∀ c ∈ x, c.isDigit = true) :
    (groupThousandsStr x).filter Char.isDigit = normalize x := by
  rw [groupThousandsStr_eq]
  exact chunksOf3_filter (by decide) (normalize_digits hd)

theorem group_filter_not_dot {x : List Char}
    (hd : ∀ c ∈ x, c.isDigit = true) :
    (groupThousandsStr x).filter (· ≠ '.') = normalize x := by
  rw [groupThousandsStr_eq]
  refine chunksOf3_filter (by simp) ?_
  intro c hc
  simp [digit_ne_dot (normalize_digits hd c hc)]

theorem group_filter_digit_comma {x : List Char}
    (hd : ∀ c ∈ x, c.isDigit = true) :
    (groupThousandsStr x).filter (fun c => c.isDigit || c == ',') =
      normalize x := by
  rw [groupThousandsStr_eq]
  refine chunksOf3_filter (by decide) ?_
  intro c hc
  simp [normalize_digits hd c hc]

theorem group_of_normalize (x : List Char) :
    groupThousandsStr (normalize x) = groupThousandsStr x := by
  rw [groupThousandsStr_eq, groupThousandsStr_eq, normalize_idem]

theorem group_no_ws {x : List Char} (hd : ∀ c ∈ x, c.isDigit = true) :
    ∀ c ∈ groupThousandsStr x, isWs c = false := by
  intro c hc
  rcases group_mem hd c hc with h | h
  · exact digit_not_ws h
  · rw [h]; decide

/-! ### Arithmetic of `applyFixedDecimals` -/

theorem val_orZero (l : List Char) : val (orZero l) = val l := by
  unfold orZero
  split
  · subst l
    decide
  · rfl

theorem length_orZero_ge (l : List Char) : 1 ≤ (orZero l).length := by
  unfold orZero
  split
  · simp
  · match l with
    | [] => simp_all
    | c :: t => simp

theorem afd_val (i d : List Char) (n : Nat)
    (hI : ∀ c ∈ i, c.isDigit = true) (hD : ∀ c ∈ d, c.isDigit = true) :
    val ((applyFixedDecimals i d n).1 ++ (applyFixedDecimals i d n).2) =
      val (i ++ (d.take n ++ List.replicate (n - d.length) '0')) +
        roundHalfUpCarry d n := by
  have hfd : d.filter Char.isDigit = d := filter_digits_self hD
  have hoz : orZero ((orZero i).filter Char.isDigit) = orZero i := by
    rw [filter_digits_self (orZero_digits hI),
      orZero_of_ne_nil (orZero_ne_nil i)]
  have hvapp : ∀ X : List Char, val (orZero i ++ X) = val (i ++ X) := by
    intro X
    rw [val_append, val_append, val_orZero]
  unfold applyFixedDecimals roundHalfUpCarry
  simp only [hfd, hoz]
  by_cases h0 : n = 0
  · subst h0
    rw [if_pos rfl]
    simp only [List.take_zero, Nat.zero_sub, List.replicate_zero,
      List.nil_append, List.append_nil]
    match d with
    | [] =>
      rw [natRepr_val]
      simp [val_orZero]
    | c :: t =>
      simp only [List.getD_cons_zero, List.length_cons]
      rw [natRepr_val]
      by_cases h5 : 5 ≤ digitVal c
      · rw [if_pos h5, if_pos ⟨by omega, h5⟩, val_orZero]
      · rw [if_neg h5,
          if_neg (fun hcon => h5 hcon.2 :
            ¬(0 < t.length + 1 ∧ 5 ≤ digitVal c))]
        rw [val_orZero]
  · rw [if_neg h0]
    by_cases hlen : d.length = n
    · rw [if_pos hlen]
      subst hlen
      rw [List.take_length, Nat.sub_self, List.replicate_zero,
        List.append_nil, hvapp]
      rw [if_neg (fun hcon => absurd hcon.1 (by omega) :
        ¬(d.length < d.length ∧ 5 ≤ digitVal (d.getD d.length '0')))]
      simp
    · rw [if_neg hlen]
      by_cases hlt : d.length < n
      · rw [if_pos hlt]
        have htake : d.take n = d := List.take_of_length_le (by omega)
        rw [htake]
        show val (orZero i ++ padEnd d n '0') =
          val (i ++ (d ++ List.replicate (n - d.length) '0')) +
            if n < d.length ∧ 5 ≤ digitVal (d.getD n '0') then 1 else 0
        rw [hvapp,
          if_neg (fun hcon => absurd hcon.1 (by omega) :
            ¬(n < d.length ∧ 5 ≤ digitVal (d.getD n '0')))]
        simp [padEnd]
      · rw [if_neg hlt]
        have hnd : n < d.length := by omega
        have hrep : List.replicate (n - d.length) '0' = ([] : List Char) := by
          rw [Nat.sub_eq_zero_of_le (by omega), List.replicate_zero]
        rw [hrep, List.append_nil]
        by_cases hnext : digitVal (d.getD n '0') < 5
        · rw [if_pos hnext,
            if_neg (fun hcon => absurd hcon.2 (by omega) :
              ¬(n < d.length ∧ 5 ≤ digitVal (d.getD n '0')))]
          exact hvapp _
        · rw [if_neg hnext, if_pos ⟨hnd, by omega⟩]
          have hkeep : (d.take n).length = n := by
            rw [List.length_take]; omega
          have hlinc : (padStart (natRepr (val (orZero i ++ d.take n) + 1))
              ((orZero i).length + (d.take n).length) '0').length ≥
              (orZero i).length + (d.take n).length := by
            simp only [padStart, List.length_append, List.length_replicate]
            omega
          set inc := padStart (natRepr (val (orZero i ++ d.take n) + 1))
            ((orZero i).length + (d.take n).length) '0' with hinc
          have hpos : 1 ≤ inc.length - n := by
            have h1 := length_orZero_ge i
            omega
          have htk : (inc.take (inc.length - n)) ≠ [] := by
            intro he
            have := congrArg List.length he
            rw [List.length_take] at this
            simp only [List.length_nil] at this
            omega
          rw [orZero_of_ne_nil htk, List.take_append_drop]
          rw [hinc, val_padStart, natRepr_val, hvapp]

theorem afd_len (i d : List Char) (n : Nat) :
    (applyFixedDecimals i d n).2.length = n := by
  simp only [applyFixedDecimals]
  by_cases h0 : n = 0
  · subst h0; rw [if_pos rfl]; rfl
  · rw [if_neg h0]
    by_cases hlen : (d.filter Char.isDigit).length = n
    · rw [if_pos hlen]; exact hlen
    · rw [if_neg hlen]
      by_cases hlt : (d.filter Char.isDigit).length < n
      · rw [if_pos hlt]
        show (padEnd (d.filter Char.isDigit) n '0').length = n
        rw [padEnd_length]; omega
      · rw [if_neg hlt]
        by_cases hnext : digitVal ((d.filter Char.isDigit).getD n '0') < 5
        · rw [if_pos hnext]
          show (List.take n (d.filter Char.isDigit)).length = n
          rw [List.length_take]; omega
        · rw [if_neg hnext]
          show (List.drop _ _).length = n
          rw [List.length_drop]
          have h1 := length_orZero_ge
            ((orZero i).filter Char.isDigit)
          have h2 : (List.take n (d.filter Char.isDigit)).length = n := by
            rw [List.length_take]; omega
          simp only [padStart, List.length_append, List.length_replicate, h2]
          omega

theorem mem_padStart_natRepr {m L : Nat} :
    ∀ c ∈ padStart (natRepr m) L '0', c.isDigit = true := by
  intro c hc
  rcases List.mem_append.mp hc with hm | hm
  · rw [List.eq_of_mem_replicate hm]; decide
  · exact natRepr_digits m c hm

theorem afd_fst (i d : List Char) (n : Nat) :
    (∀ c ∈ (applyFixedDecimals i d n).1, c.isDigit = true) ∧
      (applyFixedDecimals i d n).1 ≠ [] := by
  simp only [applyFixedDecimals]
  have hcI : ∀ c ∈ orZero ((orZero i).filter Char.isDigit),
      c.isDigit = true :=
    orZero_digits (fun c hc => List.of_mem_filter hc)
  by_cases h0 : n = 0
  · subst h0; rw [if_pos rfl]
    exact ⟨natRepr_digits _, natRepr_ne_nil _⟩
  · rw [if_neg h0]
    by_cases hlen : (d.filter Char.isDigit).length = n
    · rw [if_pos hlen]
      exact ⟨hcI, orZero_ne_nil _⟩
    · rw [if_neg hlen]
      by_cases hlt : (d.filter Char.isDigit).length < n
      · rw [if_pos hlt]
        exact ⟨hcI, orZero_ne_nil _⟩
      · rw [if_neg hlt]
        by_cases hnext : digitVal ((d.filter Char.isDigit).getD n '0') < 5
        · rw [if_pos hnext]
          exact ⟨hcI, orZero_ne_nil _⟩
        · rw [if_neg hnext]
          refine ⟨?_, orZero_ne_nil _⟩
          refine orZero_digits ?_
          intro c hc
          exact mem_padStart_natRepr c ((List.take_sublist _ _).mem hc)

theorem afd_snd (i d : List Char) (n : Nat) :
    ∀ c ∈ (applyFixedDecimals i d n).2, c.isDigit = true := by
  simp only [applyFixedDecimals]
  have hcD : ∀ c ∈ d.filter Char.isDigit, c.isDigit = true :=
    fun c hc => List.of_mem_filter hc
  by_cases h0 : n = 0
  · subst h0; rw [if_pos rfl]; intro c hc; simp at hc
  · rw [if_neg h0]
    by_cases hlen : (d.filter Char.isDigit).length = n
    · rw [if_pos hlen]; exact hcD
    · rw [if_neg hlen]
      by_cases hlt : (d.filter Char.isDigit).length < n
      · rw [if_pos hlt]
        exact padEnd_digits _ hcD
      · rw [if_neg hlt]
        by_cases hnext : digitVal ((d.filter Char.isDigit).getD n '0') < 5
        · rw [if_pos hnext]
          intro c hc
          exact hcD c ((List.take_sublist _ _).mem hc)
        · rw [if_neg hnext]
          intro c hc
          exact mem_padStart_natRepr c ((List.drop_sublist _ _).mem hc)

theorem afd_stable {i d : List Char} {n : Nat}
    (hI : ∀ c ∈ i, c.isDigit = true) (hIne : i ≠ [])
    (hD : ∀ c ∈ d, c.isDigit = true) (hn : d.length = n) (h0 : n ≠ 0) :
    applyFixedDecimals i d n = (i, d) := by
  simp only [applyFixedDecimals]
  rw [filter_digits_self hD, filter_digits_self (orZero_digits hI),
    orZero_of_ne_nil (orZero_ne_nil i), orZero_of_ne_nil hIne,
    if_neg h0, if_pos hn]

theorem afd_zero (i : List Char) (hI : ∀ c ∈ i, c.isDigit = true) :
    applyFixedDecimals i [] 0 = (natRepr (val i), []) := by
  simp only [applyFixedDecimals, if_true, List.filter_nil]
  rw [filter_digits_self (orZero_digits hI),
    orZero_of_ne_nil (orZero_ne_nil i), val_orZero, Nat.add_zero]

/-! ### `trim`, separators and `keepFirstCommaOnly` -/

theorem dropWhile_eq_self_of_all {p : Char → Bool} {l : List Char}
    (h : ∀ c ∈ l, p c = false) : l.dropWhile p = l := by
  cases l with
  | nil => rfl
  | cons c t => rw [List.dropWhile_cons, h c (by simp)]; simp

theorem filter_dropWhile_of_excl {p q : Char → Bool}
    (h : ∀ c, q c = true → p c = false) :
    ∀ l : List Char, (l.dropWhile q).filter p = l.filter p := by
  intro l
  induction l with
  | nil => rfl
  | cons c t ih =>
    rw [List.dropWhile_cons]
    by_cases hq : q c = true
    · rw [if_pos hq, ih, List.filter_cons_of_neg (by simp [h c hq])]
    · rw [if_neg hq]

theorem filter_trim_of_excl {p : Char → Bool}
    (h : ∀ c, isWs c = true → p c = false) (l : List Char) :
    (trim l).filter p = l.filter p := by
  unfold trim
  rw [List.filter_reverse, filter_dropWhile_of_excl h, List.filter_reverse,
    filter_dropWhile_of_excl h, List.reverse_reverse]

theorem digits_trim (l : List Char) :
    (trim l).filter Char.isDigit = l.filter Char.isDigit :=
  filter_trim_of_excl (fun _ hc => ws_not_digit hc) l

theorem mem_trim {l : List Char} : ∀ c ∈ trim l, c ∈ l := by
  intro c hc
  unfold trim at hc
  rw [List.mem_reverse] at hc
  have h1 := (List.dropWhile_sublist (l := (l.dropWhile isWs).reverse)
    (p := isWs)).mem hc
  rw [List.mem_reverse] at h1
  exact (List.dropWhile_sublist _).mem h1

theorem trim_of_no_ws {l : List Char} (h : ∀ c ∈ l, isWs c = false) :
    trim l = l := by
  unfold trim
  rw [dropWhile_eq_self_of_all h,
    dropWhile_eq_self_of_all (fun c hc => h c (List.mem_reverse.mp hc)),
    List.reverse_reverse]

theorem trim_head_minus {l : List Char} (h : l.head? = some '-') :
    (trim l).head? = some '-' := by
  match l with
  | [] => simp at h
  | c :: t =>
    have hc : c = '-' := by simpa using h
    subst hc
    have h1 : ('-' :: t).dropWhile isWs = '-' :: t := by
      rw [List.dropWhile_cons, if_neg (by decide)]
    show ((('-' :: t).dropWhile isWs).reverse.dropWhile
      isWs).reverse.head? = some '-'
    rw [h1, List.head?_reverse]
    have hne : ('-' :: t).reverse.dropWhile isWs ≠ [] := by
      intro he
      have hall : ∀ e ∈ ('-' :: t).reverse, isWs e = true := by
        have hsp := List.takeWhile_append_dropWhile (p := isWs)
          (l := ('-' :: t).reverse)
        rw [he, List.append_nil] at hsp
        intro e he2
        rw [← hsp] at he2
        exact List.mem_takeWhile_imp he2
      exact absurd (hall '-' (by simp)) (by decide)
    obtain ⟨u, hu⟩ : ∃ u, u ++ ('-' :: t).reverse.dropWhile isWs =
        ('-' :: t).reverse := ⟨('-' :: t).reverse.takeWhile isWs,
          List.takeWhile_append_dropWhile _ _⟩
    have hsome := List.getLast?_isSome.mpr hne
    obtain ⟨y, hy⟩ := Option.isSome_iff_exists.mp hsome
    have hchain : (('-' :: t).reverse.dropWhile isWs).getLast? =
        ('-' :: t).reverse.getLast? := by
      conv_rhs => rw [← hu]
      rw [List.getLast?_append, hy]
      rfl
    rw [hchain, List.getLast?_reverse]
    rfl

theorem mem_beforeSep {sep : Char} {l : List Char} :
    ∀ c ∈ beforeSep sep l, c ∈ l :=
  fun _ hc => (List.takeWhile_sublist _).mem hc

theorem mem_afterSep {sep : Char} {l : List Char} :
    ∀ c ∈ afterSep sep l, c ∈ l := by
  intro c hc
  unfold afterSep at hc
  exact (List.dropWhile_sublist _).mem ((List.tail_sublist _).mem hc)

theorem beforeSep_no_sep {sep : Char} {l : List Char} :
    sep ∉ beforeSep sep l := by
  intro hmem
  have := List.mem_takeWhile_imp hmem
  simp at this

theorem beforeSep_of_not_mem {sep : Char} {l : List Char} (h : sep ∉ l) :
    beforeSep sep l = l := by
  unfold beforeSep
  refine List.takeWhile_eq_self_iff.mpr ?_
  intro c hc
  simp only [ne_eq, decide_eq_true_eq]
  intro he
  subst he
  exact h hc

theorem afterSep_of_not_mem {sep : Char} {l : List Char} (h : sep ∉ l) :
    afterSep sep l = [] := by
  unfold afterSep
  have hnil : l.dropWhile (· ≠ sep) = [] := by
    induction l with
    | nil => rfl
    | cons c t ih =>
      rw [List.dropWhile_cons, if_pos ?hc]
      case hc =>
        simp only [ne_eq, decide_eq_true_eq]
        intro he
        subst he
        exact h (by simp)
      exact ih (fun hm => h (by simp [hm]))
  rw [hnil]
  rfl

theorem beforeSep_append {sep : Char} {a b : List Char} (h : sep ∉ a) :
    beforeSep sep (a ++ sep :: b) = a := by
  unfold beforeSep
  refine takeWhile_append_all ?_ (by simp)
  intro c hc
  simp only [ne_eq, decide_eq_true_eq]
  intro he
  subst he
  exact h hc

theorem dropWhile_append_all {p : Char → Bool} {a : List Char}
    (hall : ∀ c ∈ a, p c = true) (t : List Char) :
    (a ++ t).dropWhile p = t.dropWhile p := by
  induction a with
  | nil => rfl
  | cons c cs ih =>
    rw [List.cons_append, List.dropWhile_cons, if_pos (hall c (by simp))]
    exact ih (fun e he => hall e (by simp [he]))

theorem afterSep_append {sep : Char} {a b : List Char} (h : sep ∉ a) :
    afterSep sep (a ++ sep :: b) = b := by
  unfold afterSep
  rw [dropWhile_append_all ?hall (sep :: b)]
  case hall =>
    intro c hc
    simp only [ne_eq, decide_eq_true_eq]
    intro he
    subst he
    exact h hc
  rw [List.dropWhile_cons, if_neg (by simp)]
  rfl

theorem keepFirstComma_mem {l : List Char} :
    ∀ c ∈ keepFirstCommaOnly l, c ∈ l := by
  induction l with
  | nil => intro c hc; simp [keepFirstCommaOnly] at hc
  | cons a t ih =>
    intro c hc
    unfold keepFirstCommaOnly at hc
    split at hc
    · simp only [List.mem_cons] at hc
      rcases hc with h | h
      · simp [h]
      · right; exact List.mem_of_mem_filter h
    · simp only [List.mem_cons] at hc
      rcases hc with h | h
      · simp [h]
      · right; exact ih c h

theorem keepFirstComma_of_not_mem {l : List Char} (h : ',' ∉ l) :
    keepFirstCommaOnly l = l := by
  induction l with
  | nil => rfl
  | cons a t ih =>
    unfold keepFirstCommaOnly
    rw [if_neg (by intro he; exact h (by simp [he]))]
    rw [ih (fun hm => h (by simp [hm]))]

theorem keepFirstComma_eq {l : List Char} (h : ',' ∈ l) :
    keepFirstCommaOnly l =
      beforeSep ',' l ++ ',' :: (afterSep ',' l).filter (· ≠ ',') := by
  induction l with
  | nil => simp at h
  | cons a t ih =>
    by_cases ha : a = ','
    · subst ha
      unfold keepFirstCommaOnly
      rw [if_pos rfl]
      have h1 : beforeSep ',' (',' :: t) = [] := by
        unfold beforeSep
        rw [List.takeWhile_cons, if_neg (by simp)]
      have h2 : afterSep ',' (',' :: t) = t := by
        unfold afterSep
        rw [List.dropWhile_cons, if_neg (by simp)]
        rfl
      rw [h1, h2]
      rfl
    · have hmem : ',' ∈ t := by
        rcases List.mem_cons.mp h with he | he
        · exact absurd he.symm ha
        · exact he
      unfold keepFirstCommaOnly
      rw [if_neg ha, ih hmem]
      have h1 : beforeSep ',' (a :: t) = a :: beforeSep ',' t := by
        unfold beforeSep
        rw [List.takeWhile_cons, if_pos (by simp [ha])]
      have h2 : afterSep ',' (a :: t) = afterSep ',' t := by
        unfold afterSep
        rw [List.dropWhile_cons, if_pos (by simp [ha])]
      rw [h1, h2]
      rfl

/-! ### Membership facts for the pattern and `classifyFmt` -/

theorem dotGroups_mem :
    ∀ r : List Char, dotGroups r = true →
      ∀ c ∈ r, c.isDigit = true ∨ c = '.' := by
  intro r
  induction r using dotGroups.induct with
  | case1 => intro hr; simp [dotGroups] at hr
  | case2 a => intro hr; simp [dotGroups] at hr
  | case3 a b => intro hr; simp [dotGroups] at hr
  | case4 a b c => intro hr; simp [dotGroups] at hr
  | case5 s a b c rest ih =>
    intro hr e he
    have hshow : dotGroups (s :: a :: b :: c :: rest) =
        (s == '.' && a.isDigit && b.isDigit && c.isDigit &&
          (rest.isEmpty || dotGroups rest)) := rfl
    rw [hshow] at hr
    simp only [Bool.and_eq_true, Bool.or_eq_true, beq_iff_eq] at hr
    obtain ⟨⟨⟨⟨hs, ha⟩, hb⟩, hc⟩, hrest⟩ := hr
    simp only [List.mem_cons] at he
    rcases he with h | h | h | h | h
    · right; rw [h, hs]
    · left; rw [h]; exact ha
    · left; rw [h]; exact hb
    · left; rw [h]; exact hc
    · rcases hrest with hrest | hrest
      · have : rest = [] := by simpa using hrest
        subst this
        simp at h
      · exact ih hrest e h

theorem drop_takeWhile_eq_dropWhile (p : Char → Bool) (l : List Char) :
    l.drop (l.takeWhile p).length = l.dropWhile p := by
  nth_rewrite 2 [← List.takeWhile_append_dropWhile (p := p) (l := l)]
  exact List.drop_left _ _

theorem pattern_mem {s : List Char} (h : thousandPattern s = true) :
    ∀ c ∈ s, c.isDigit = true ∨ c = '.' := by
  rw [thousandPattern_iff] at h
  obtain ⟨h1, h3, hd, hg⟩ := h
  intro c hc
  rw [show (beforeSep '.' s).length = (s.takeWhile (· ≠ '.')).length from rfl,
    drop_takeWhile_eq_dropWhile] at hg
  conv at hc =>
    rw [← List.takeWhile_append_dropWhile (p := (· ≠ '.')) (l := s)]
  rcases List.mem_append.mp hc with hm | hm
  · left; exact hd c hm
  · exact dotGroups_mem _ hg c hm

theorem pattern_has_digit {s : List Char} (h : thousandPattern s = true) :
    ∃ c ∈ s, c.isDigit = true := by
  rw [thousandPattern_iff] at h
  obtain ⟨h1, _, hd, _⟩ := h
  match hb : beforeSep '.' s with
  | [] => rw [hb] at h1; simp at h1
  | c :: t =>
    exact ⟨c, mem_beforeSep c (by rw [hb]; simp), hd c (by rw [hb]; simp)⟩

theorem classify_fst_digits (t : List Char) :
    (∀ c ∈ (classifyFmt t).1, c.isDigit = true) ∧ (classifyFmt t).1 ≠ [] := by
  simp only [classifyFmt]
  split
  · exact ⟨orZero_digits (fun c hc => List.of_mem_filter hc), orZero_ne_nil _⟩
  · split
    · split
      · refine ⟨orZero_digits ?_, orZero_ne_nil _⟩
        intro c hc
        have hm := List.mem_filter.mp hc
        rcases pattern_mem (by assumption) c hm.1 with h | h
        · exact h
        · exact absurd h (by simpa using hm.2)
      · exact ⟨orZero_digits (fun c hc => List.of_mem_filter hc),
          orZero_ne_nil _⟩
    · exact ⟨orZero_digits (fun c hc => List.of_mem_filter hc),
        orZero_ne_nil _⟩

theorem classify_snd_digits (t : List Char) :
    ∀ c ∈ (classifyFmt t).2, c.isDigit = true := by
  simp only [classifyFmt]
  split
  · exact fun c hc => List.of_mem_filter hc
  · split
    · split
      · intro c hc; simp at hc
      · exact fun c hc => List.of_mem_filter hc
    · intro c hc; simp at hc

theorem classify_digitless {t : List Char}
    (h : ∀ c ∈ t, c.isDigit = false) : classifyFmt t = (['0'], []) := by
  have hfe : ∀ u : List Char, (∀ c, c ∈ u → c ∈ t) →
      u.filter Char.isDigit = [] := by
    intro u hu
    rw [List.filter_eq_nil_iff]
    intro c hc
    simp [h c (hu c hc)]
  simp only [classifyFmt]
  split
  · simp only [Prod.mk.injEq]
    constructor
    · rw [hfe (beforeSep ','
        (keepFirstCommaOnly (t.filter (fun c => c.isDigit || c == ','))))
        (fun c hc =>
          (List.mem_filter.mp (keepFirstComma_mem c (mem_beforeSep c hc))).1)]
      rfl
    · exact hfe _ (fun c hc =>
        (List.mem_filter.mp
          (keepFirstComma_mem c (mem_afterSep c (mem_beforeSep c hc)))).1)
  · split
    · split
      · exfalso
        obtain ⟨c, hc, hcd⟩ := pattern_has_digit (by assumption)
        have hct : c ∈ t := (List.mem_filter.mp hc).1
        rw [h c hct] at hcd
        exact absurd hcd (by simp)
      · simp only [Prod.mk.injEq]
        constructor
        · rw [hfe (beforeSep '.' (t.filter (fun c => !isWs c)))
            (fun c hc => (List.mem_filter.mp (mem_beforeSep c hc)).1)]
          rfl
        · exact hfe _ (fun c hc =>
            (List.mem_filter.mp (mem_afterSep c (mem_beforeSep c hc))).1)
    · simp only [Prod.mk.injEq]
      constructor
      · rw [hfe t (fun c hc => hc)]
        rfl
      · trivial

/-! ### Parse pipeline -/

theorem beforeSep_filter {sep : Char} {q : Char → Bool}
    (hsep : q sep = true) :
    ∀ l : List Char, beforeSep sep (l.filter q) = (beforeSep sep l).filter q := by
  intro l
  induction l with
  | nil => rfl
  | cons c t ih =>
    unfold beforeSep at ih ⊢
    by_cases hqc : q c = true
    · rw [List.filter_cons_of_pos hqc, List.takeWhile_cons,
        List.takeWhile_cons]
      by_cases hcs : c = sep
      · subst hcs
        rw [if_neg (by simp), if_neg (by simp)]
        rfl
      · rw [if_pos (by simp [hcs]), if_pos (by simp [hcs]),
          List.filter_cons_of_pos hqc, ih]
    · have hcs : c ≠ sep := by
        intro he; subst he; simp [hsep] at hqc
      rw [List.filter_cons_of_neg (by simpa using hqc), List.takeWhile_cons,
        if_pos (by simp [hcs]), List.filter_cons_of_neg (by simpa using hqc),
        ih]

theorem dropWhile_sep_filter {sep : Char} {q : Char → Bool}
    (hsep : q sep = true) :
    ∀ l : List Char,
      (l.filter q).dropWhile (· ≠ sep) = (l.dropWhile (· ≠ sep)).filter q := by
  intro l
  induction l with
  | nil => rfl
  | cons c t ih =>
    by_cases hqc : q c = true
    · rw [List.filter_cons_of_pos hqc, List.dropWhile_cons,
        List.dropWhile_cons]
      by_cases hcs : c = sep
      · subst hcs
        rw [if_neg (by simp), if_neg (by simp), List.filter_cons_of_pos hqc]
      · rw [if_pos (by simp [hcs]), if_pos (by simp [hcs]), ih]
    · have hcs : c ≠ sep := by
        intro he; subst he; simp [hsep] at hqc
      rw [List.filter_cons_of_neg (by simpa using hqc), List.dropWhile_cons,
        if_pos (by simp [hcs]), ih]

theorem afterSep_filter {sep : Char} {q : Char → Bool}
    (hsep : q sep = true) (l : List Char) :
    afterSep sep (l.filter q) = (afterSep sep l).filter q := by
  unfold afterSep
  rw [dropWhile_sep_filter hsep]
  match hd : l.dropWhile (· ≠ sep) with
  | [] => rfl
  | c :: r =>
    have hc : c = sep := by
      have := head_dropWhile_false (p := (· ≠ sep)) l c (by rw [hd]; rfl)
      simpa using this
    subst hc
    rw [List.filter_cons_of_pos hsep]
    rfl

theorem filter_digits_keepFirstComma (l : List Char) :
    (keepFirstCommaOnly l).filter Char.isDigit = l.filter Char.isDigit := by
  induction l with
  | nil => rfl
  | cons c t ih =>
    unfold keepFirstCommaOnly
    by_cases hc : c = ','
    · subst hc
      rw [if_pos rfl, List.filter_cons_of_neg (by decide),
        List.filter_cons_of_neg (by decide), List.filter_filter]
      refine List.filter_congr ?_
      intro a _
      by_cases hd : a.isDigit = true
      · simp [hd, digit_ne_comma hd]
      · simp [hd]
    · rw [if_neg hc]
      by_cases hd : c.isDigit = true
      · rw [List.filter_cons_of_pos hd, List.filter_cons_of_pos hd, ih]
      · rw [List.filter_cons_of_neg (by simpa using hd),
          List.filter_cons_of_neg (by simpa using hd), ih]

theorem filter_digits_map_comma (l : List Char) :
    (l.map (fun c => if c = ',' then '.' else c)).filter Char.isDigit =
      l.filter Char.isDigit := by
  induction l with
  | nil => rfl
  | cons c t ih =>
    rw [List.map_cons]
    by_cases hc : c = ','
    · subst hc
      rw [if_pos rfl, List.filter_cons_of_neg (by decide),
        List.filter_cons_of_neg (by decide), ih]
    · rw [if_neg hc]
      by_cases hd : c.isDigit = true
      · rw [List.filter_cons_of_pos hd, List.filter_cons_of_pos hd, ih]
      · rw [List.filter_cons_of_neg (by simpa using hd),
          List.filter_cons_of_neg (by simpa using hd), ih]

theorem map_comma_of_not_mem {l : List Char} (h : ',' ∉ l) :
    l.map (fun c => if c = ',' then '.' else c) = l := by
  have := List.map_congr_left (f := fun c => if c = ',' then '.' else c)
    (g := id) (l := l) ?_
  · rw [this, List.map_id]
  · intro a ha
    have : a ≠ ',' := by intro he; subst he; exact h ha
    simp [this]

theorem filter_digit_and {q : Char → Bool}
    (hq : ∀ c, c.isDigit = true → q c = true) (l : List Char) :
    l.filter (fun a => q a && a.isDigit) = l.filter Char.isDigit := by
  refine List.filter_congr ?_
  intro a _
  by_cases hd : a.isDigit = true
  · simp [hd, hq a hd]
  · simp [hd]

theorem filter_and_digit {q : Char → Bool}
    (hq : ∀ c, c.isDigit = true → q c = true) (l : List Char) :
    l.filter (fun a => a.isDigit && q a) = l.filter Char.isDigit := by
  refine List.filter_congr ?_
  intro a _
  by_cases hd : a.isDigit = true
  · simp [hd, hq a hd]
  · simp [hd]

theorem parseCore_eq_spec (v : Option (List Char)) :
    parseCore v = parseIdrSpec v := by
  match v with
  | none => rfl
  | some s =>
    by_cases hs : s = []
    · subst hs; rfl
    · simp only [parseCore, parseIdrSpec, if_neg hs]
      set s1 := if (trim s).head? = some '-' then (trim s).tail else trim s
        with hs1
      set s2 := s1.filter (fun c => c.isDigit || c == '.' || c == ',')
        with hs2
      by_cases h2 : s2 = []
      · rw [if_pos h2, h2, List.filter_nil]
        rfl
      · rw [if_neg h2]
        set X := (keepFirstCommaOnly s2).filter (· ≠ '.') with hX
        set normalized := X.map (fun c => if c = ',' then '.' else c)
          with hnorm
        have hmemX : ∀ c ∈ X, c ∈ s2 :=
          fun c hc => keepFirstComma_mem c (List.mem_filter.mp hc).1
        have hXnotdot : ∀ c ∈ X, c ≠ '.' := by
          intro c hc
          have h := (List.mem_filter.mp hc).2
          simpa using h
        have hdigX : normalized.filter Char.isDigit =
            s2.filter Char.isDigit := by
          rw [hnorm, filter_digits_map_comma, hX, List.filter_filter,
            filter_and_digit (fun c hc => by simp [digit_ne_dot hc]),
            filter_digits_keepFirstComma]
        by_cases hdig : s2.filter Char.isDigit = []
        · rw [if_pos hdig]
          have helem : ∀ c ∈ X, c = ',' := by
            intro c hc
            have hc2 : c ∈ s2 := hmemX c hc
            have hnd := List.filter_eq_nil_iff.mp hdig c hc2
            have hkinds : (c.isDigit || c == '.' || c == ',') = true := by
              rw [hs2] at hc2
              exact List.of_mem_filter
                (p := fun c => c.isDigit || c == '.' || c == ',') hc2
            have hnotdot : c ≠ '.' := hXnotdot c hc
            rw [Bool.eq_false_iff.mpr hnd] at hkinds
            simp only [Bool.false_or, Bool.or_eq_true, beq_iff_eq] at hkinds
            rcases hkinds with h | h
            · exact absurd h hnotdot
            · exact h
          have hnone : normalized = [] ∨ normalized = ['.'] := by
            by_cases hc2 : ',' ∈ s2
            · right
              have hXeq : X = [','] := by
                have hB : (beforeSep ',' s2).filter (· ≠ '.') = [] := by
                  rw [List.eq_nil_iff_forall_not_mem]
                  intro c hc
                  have hcm : c ∈ X := by
                    rw [hX, keepFirstComma_eq hc2, List.filter_append]
                    exact List.mem_append.mpr (Or.inl hc)
                  have hcc := helem c hcm
                  subst hcc
                  exact beforeSep_no_sep (List.mem_filter.mp hc).1
                have hAF : ((afterSep ',' s2).filter
                    (· ≠ ',')).filter (· ≠ '.') = [] := by
                  rw [List.eq_nil_iff_forall_not_mem]
                  intro c hc
                  have hcm : c ∈ X := by
                    rw [hX, keepFirstComma_eq hc2, List.filter_append,
                      List.filter_cons_of_pos (by decide)]
                    exact List.mem_append.mpr
                      (Or.inr (List.mem_cons.mpr (Or.inr hc)))
                  have hcc := helem c hcm
                  have hne := (List.mem_filter.mp
                    (List.mem_filter.mp hc).1).2
                  rw [hcc] at hne
                  simp at hne
                rw [hX, keepFirstComma_eq hc2, List.filter_append,
                  List.filter_cons_of_pos (by decide)]
                rw [hB, hAF]
                rfl
              rw [hnorm, hXeq]
              rfl
            · left
              have hXeq : X = [] := by
                rw [List.eq_nil_iff_forall_not_mem]
                intro c hc
                have hcc := helem c hc
                subst hcc
                exact hc2 (hmemX ',' hc)
              rw [hnorm, hXeq]
              rfl
          rw [if_pos hnone]
        · rw [if_neg hdig]
          have hnorm_ne : ¬(normalized = [] ∨ normalized = ['.']) := by
            intro hor
            rcases hor with h | h
            · exact hdig (by rw [← hdigX, h]; rfl)
            · exact hdig (by rw [← hdigX, h]; rfl)
          rw [if_neg hnorm_ne]
          by_cases hc2 : ',' ∈ s2
          · have hBnc : ∀ c ∈ (beforeSep ',' s2).filter (· ≠ '.'),
                c ≠ ',' := by
              intro c hc he
              subst he
              exact beforeSep_no_sep (List.mem_filter.mp hc).1
            have hAFnc : ∀ c ∈ ((afterSep ',' s2).filter
                (· ≠ ',')).filter (· ≠ '.'), c ≠ ',' := by
              intro c hc he
              have h1 := (List.mem_filter.mp (List.mem_filter.mp hc).1).2
              rw [he] at h1
              simp at h1
            have hXeq : X = (beforeSep ',' s2).filter (· ≠ '.') ++
                ',' :: ((afterSep ',' s2).filter (· ≠ ',')).filter
                  (· ≠ '.') := by
              rw [hX, keepFirstComma_eq hc2, List.filter_append,
                List.filter_cons_of_pos (by decide)]
            have hnormeq : normalized =
                (beforeSep ',' s2).filter (· ≠ '.') ++
                '.' :: ((afterSep ',' s2).filter (· ≠ ',')).filter
                  (· ≠ '.') := by
              rw [hnorm, hXeq, List.map_append, List.map_cons,
                map_comma_of_not_mem (fun hm => hBnc ',' hm rfl),
                map_comma_of_not_mem (fun hm => hAFnc ',' hm rfl)]
              rfl
            have hBdot : '.' ∉ (beforeSep ',' s2).filter (· ≠ '.') := by
              intro hm
              have h := (List.mem_filter.mp hm).2
              simp at h
            have hAFdot : '.' ∉ ((afterSep ',' s2).filter
                (· ≠ ',')).filter (· ≠ '.') := by
              intro hm
              have h := (List.mem_filter.mp hm).2
              simp at h
            have hbs : beforeSep '.' normalized =
                (beforeSep ',' s2).filter (· ≠ '.') := by
              rw [hnormeq]; exact beforeSep_append hBdot
            have hbs2 : beforeSep '.' (afterSep '.' normalized) =
                ((afterSep ',' s2).filter (· ≠ ',')).filter (· ≠ '.') := by
              rw [hnormeq, afterSep_append hBdot]
              exact beforeSep_of_not_mem hAFdot
            rw [hbs, hbs2, beforeSep_filter (by decide) s2,
              afterSep_filter (by decide) s2]
            have hsnd : (((afterSep ',' s2).filter (· ≠ ',')).filter
                  (· ≠ '.')).filter Char.isDigit =
                ((afterSep ',' s2).filter (· ≠ '.')).filter Char.isDigit := by
              rw [List.filter_filter, List.filter_filter, List.filter_filter]
              refine List.filter_congr ?_
              intro a _
              by_cases hd : a.isDigit = true
              · simp [hd, digit_ne_comma hd, digit_ne_dot hd]
              · simp [hd]
            rw [hsnd]
          · have hXe : X = s2.filter (· ≠ '.') := by
              rw [hX, keepFirstComma_of_not_mem hc2]
            have hnc' : ',' ∉ X := fun hm => hc2 (hmemX ',' hm)
            have hnormeq : normalized = s2.filter (· ≠ '.') := by
              rw [hnorm, map_comma_of_not_mem hnc', hXe]
            have hdotless : '.' ∉ s2.filter (· ≠ '.') := by
              intro hm
              have h := (List.mem_filter.mp hm).2
              simp at h
            have hcomma : ',' ∉ s2.filter (· ≠ '.') :=
              fun hm => hc2 (List.mem_filter.mp hm).1
            rw [hnormeq, beforeSep_of_not_mem hdotless,
              afterSep_of_not_mem hdotless, beforeSep_of_not_mem hcomma,
              afterSep_of_not_mem hcomma]
            rfl

theorem parseCore_digitless {s : List Char}
    (h : s.filter Char.isDigit = []) : parseCore (some s) = none := by
  rw [parseCore_eq_spec]
  simp only [parseIdrSpec]
  rw [if_pos (by
    rw [List.filter_eq_nil_iff]
    intro c hc
    have hc1 : c ∈ (if (trim s).head? = some '-' then (trim s).tail
        else trim s) := (List.mem_filter.mp hc).1
    have hcs : c ∈ s := by
      by_cases hneg : (trim s).head? = some '-'
      · rw [if_pos hneg] at hc1
        exact mem_trim c ((List.tail_sublist _).mem hc1)
      · rw [if_neg hneg] at hc1
        exact mem_trim c hc1
    exact List.filter_eq_nil_iff.mp h c hcs)]

theorem parseIdrFixed_digitless {s : List Char}
    (h : s.filter Char.isDigit = []) : parseIdrFixed (some s) = none := by
  simp only [parseIdrFixed, parseCore_digitless h]

theorem parseIdrNum_digitless {s : List Char}
    (h : s.filter Char.isDigit = []) : parseIdrNum (some s) = none := by
  simp only [parseIdrNum, parseCore_digitless h]

theorem formatIdrStr_digitless {s : List Char}
    (h : s.filter Char.isDigit = []) :
    formatIdrStr s {} =
      if (trim s).head? = some '-' then ['-', '0'] else ['0'] := by
  have hmem : ∀ c ∈ s, c.isDigit = false := fun c hc =>
    Bool.eq_false_iff.mpr (List.filter_eq_nil_iff.mp h c hc)
  simp only [formatIdrStr]
  by_cases hneg : (trim s).head? = some '-'
  · rw [if_pos hneg, if_pos hneg, if_pos hneg,
      classify_digitless (fun c hc =>
        hmem c (mem_trim c ((List.tail_sublist _).mem hc)))]
    rfl
  · rw [if_neg hneg, if_neg hneg, if_neg hneg,
      classify_digitless (fun c hc => hmem c (mem_trim c hc))]
    rfl

/-! ### Re-classifying formatted output (stability of `formatIdr`) -/

theorem classify_group {i : List Char} (hI : ∀ c ∈ i, c.isDigit = true) :
    classifyFmt (groupThousandsStr i) = (normalize i, []) := by
  simp only [classifyFmt]
  rw [if_neg (group_no_comma hI)]
  have hws : (groupThousandsStr i).filter (fun c => !isWs c) =
      groupThousandsStr i :=
    List.filter_eq_self.mpr (fun c hc => by rw [group_no_ws hI c hc]; rfl)
  by_cases hdot : '.' ∈ groupThousandsStr i
  · rw [if_pos hdot, hws]
    have h4 : 4 ≤ (normalize i).length := by
      by_contra hlt
      have h3 : (normalize i).length ≤ 3 := by omega
      rw [group_short h3] at hdot
      have := normalize_digits hI '.' hdot
      exact absurd this (by decide)
    rw [if_pos (group_pattern hI h4), group_filter_not_dot hI,
      orZero_of_ne_nil (normalize_ne_nil i)]
  · rw [if_neg hdot, group_filter_digits hI,
      orZero_of_ne_nil (normalize_ne_nil i)]

theorem classify_group_dec {i d : List Char}
    (hI : ∀ c ∈ i, c.isDigit = true) (hD : ∀ c ∈ d, c.isDigit = true) :
    classifyFmt (groupThousandsStr i ++ ',' :: d) = (normalize i, d) := by
  simp only [classifyFmt]
  rw [if_pos (List.mem_append.mpr (Or.inr (by simp)))]
  have honly : (groupThousandsStr i ++ ',' :: d).filter
      (fun c => c.isDigit || c == ',') = normalize i ++ ',' :: d := by
    rw [List.filter_append, group_filter_digit_comma hI,
      List.filter_cons_of_pos (by decide),
      List.filter_eq_self.mpr (fun c hc => by simp [hD c hc])]
  rw [honly]
  have hnc : ',' ∉ normalize i := fun hm =>
    absurd (normalize_digits hI ',' hm) (by decide)
  have hraw : keepFirstCommaOnly (normalize i ++ ',' :: d) =
      normalize i ++ ',' :: d := by
    rw [keepFirstComma_eq (List.mem_append.mpr (Or.inr (by simp))),
      beforeSep_append hnc, afterSep_append hnc,
      List.filter_eq_self.mpr (fun c hc => by
        simp [digit_ne_comma (hD c hc)])]
  rw [hraw, beforeSep_append hnc, afterSep_append hnc,
    beforeSep_of_not_mem (fun hm => absurd (hD ',' hm) (by decide)),
    filter_digits_self (normalize_digits hI),
    orZero_of_ne_nil (normalize_ne_nil i), filter_digits_self hD]

theorem finish_mem {o : FormatIdrOptions} {i d : List Char}
    (hI : ∀ c ∈ i, c.isDigit = true) (hD : ∀ c ∈ d, c.isDigit = true) :
    ∀ c ∈ finishFmt o i d,
      c.isDigit = true ∨ c = '.' ∨ c = ',' := by
  intro c hc
  unfold finishFmt at hc
  match ho : o.decimals with
  | none =>
    simp only [ho] at hc
    by_cases hd : d = []
    · rw [if_pos hd] at hc
      rcases group_mem hI c hc with h | h
      · exact Or.inl h
      · exact Or.inr (Or.inl h)
    · rw [if_neg hd] at hc
      rcases List.mem_append.mp hc with h | h
      · rcases group_mem hI c h with h2 | h2
        · exact Or.inl h2
        · exact Or.inr (Or.inl h2)
      · rcases List.mem_cons.mp h with h2 | h2
        · exact Or.inr (Or.inr h2)
        · by_cases hp : o.padZeros
          · rw [if_pos hp] at h2
            exact Or.inl (padEnd_digits 2 hD c h2)
          · rw [if_neg hp] at h2
            exact Or.inl (hD c h2)
  | some n =>
    simp only [ho] at hc
    by_cases hn : 0 < n
    · rw [if_pos hn] at hc
      rcases List.mem_append.mp hc with h | h
      · rcases group_mem (afd_fst i d n).1 c h with h2 | h2
        · exact Or.inl h2
        · exact Or.inr (Or.inl h2)
      · rcases List.mem_cons.mp h with h2 | h2
        · exact Or.inr (Or.inr h2)
        · exact Or.inl (afd_snd i d n c h2)
    · rw [if_neg hn] at hc
      rcases group_mem (afd_fst i d n).1 c hc with h2 | h2
      · exact Or.inl h2
      · exact Or.inr (Or.inl h2)

theorem finish_no_ws {o : FormatIdrOptions} {i d : List Char}
    (hI : ∀ c ∈ i, c.isDigit = true) (hD : ∀ c ∈ d, c.isDigit = true) :
    ∀ c ∈ finishFmt o i d, isWs c = false := by
  intro c hc
  rcases finish_mem hI hD c hc with h | h | h
  · exact digit_not_ws h
  · rw [h]; rfl
  · rw [h]; rfl

theorem finish_not_minus {o : FormatIdrOptions} {i d : List Char}
    (hI : ∀ c ∈ i, c.isDigit = true) (hD : ∀ c ∈ d, c.isDigit = true) :
    ∀ c ∈ finishFmt o i d, c ≠ '-' := by
  intro c hc
  rcases finish_mem hI hD c hc with h | h | h
  · exact digit_ne_minus h
  · rw [h]; decide
  · rw [h]; decide

theorem finish_ne_nil (o : FormatIdrOptions) (i d : List Char) :
    finishFmt o i d ≠ [] := by
  rcases o with ⟨dec, pz⟩
  cases dec with
  | none =>
    simp only [finishFmt]
    split
    · exact group_ne_nil i
    · intro he
      exact group_ne_nil i (List.append_eq_nil.mp he).1
  | some n =>
    simp only [finishFmt]
    split
    · intro he
      exact group_ne_nil _ (List.append_eq_nil.mp he).1
    · exact group_ne_nil _

theorem afd_zero_fst (i d : List Char) :
    ∃ m, (applyFixedDecimals i d 0).1 = natRepr m := by
  simp only [applyFixedDecimals, if_true]
  exact ⟨_, rfl⟩

theorem finish_refinish (o : FormatIdrOptions) (i d : List Char)
    (hI : ∀ c ∈ i, c.isDigit = true) (hD : ∀ c ∈ d, c.isDigit = true) :
    finishFmt o (classifyFmt (finishFmt o i d)).1
      (classifyFmt (finishFmt o i d)).2 = finishFmt o i d := by
  rcases o with ⟨dec, pz⟩
  cases dec with
  | none =>
    by_cases hd : d = []
    · have hfin : finishFmt ⟨none, pz⟩ i d = groupThousandsStr i := by
        simp only [finishFmt]
        rw [if_pos hd]
      rw [hfin, classify_group hI]
      simp only [finishFmt]
      rw [if_true, group_of_normalize]
    · set d' := if pz = true then padEnd d 2 '0' else d with hd'
      have hD' : ∀ c ∈ d', c.isDigit = true := by
        rw [hd']
        split
        · exact padEnd_digits 2 hD
        · exact hD
      have hd'ne : d' ≠ [] := by
        rw [hd']
        split
        · intro he
          exact hd (List.append_eq_nil.mp he).1
        · exact hd
      have hfin : finishFmt ⟨none, pz⟩ i d =
          groupThousandsStr i ++ ',' :: d' := by
        simp only [finishFmt]
        rw [if_neg hd, ← hd']
      rw [hfin, classify_group_dec hI hD']
      simp only [finishFmt]
      rw [if_neg hd'ne, group_of_normalize]
      by_cases hpz : pz = true
      · have hlen : 2 ≤ d'.length := by
          rw [hd', if_pos hpz, padEnd_length]
          omega
        rw [if_pos hpz, padEnd_of_le hlen]
      · rw [if_neg hpz]
  | some n =>
    cases n with
    | zero =>
      have hfin : finishFmt ⟨some 0, pz⟩ i d =
          groupThousandsStr (applyFixedDecimals i d 0).1 := by
        simp only [finishFmt]
        rw [if_neg (by omega)]
      obtain ⟨m, hm⟩ := afd_zero_fst i d
      rw [hfin, classify_group (afd_fst i d 0).1]
      simp only [finishFmt]
      rw [if_neg (by omega), hm, normalize_natRepr,
        afd_zero _ (natRepr_digits m), natRepr_val]
    | succ k =>
      have hpos : 0 < k + 1 := by omega
      have hfin : finishFmt ⟨some (k + 1), pz⟩ i d =
          groupThousandsStr (applyFixedDecimals i d (k + 1)).1 ++
            ',' :: (applyFixedDecimals i d (k + 1)).2 := by
        simp only [finishFmt]
        rw [if_pos hpos]
      rw [hfin, classify_group_dec (afd_fst i d (k + 1)).1
        (afd_snd i d (k + 1))]
      simp only [finishFmt]
      rw [afd_stable (normalize_digits (afd_fst i d (k + 1)).1)
        (normalize_ne_nil _) (afd_snd i d (k + 1)) (afd_len i d (k + 1))
        (by omega), if_pos hpos, group_of_normalize]

theorem fixedToString_ne_nil (fx : FixedIdr) : fixedToString fx ≠ [] := by
  simp only [fixedToString]
  by_cases h0 : fx.scale = 0
  · rw [if_pos h0]
    intro he
    exact natRepr_ne_nil fx.units (List.append_eq_nil.mp he).2
  · rw [if_neg h0]
    intro he
    exact absurd (List.append_eq_nil.mp he).2 (by simp)

theorem formatIdrStr_idem (s : List Char) (o : FormatIdrOptions) :
    formatIdr (.str (formatIdrStr s o)) o = formatIdrStr s o := by
  by_cases hneg : (trim s).head? = some '-'
  · set str1 := (trim s).tail with hstr1
    obtain ⟨hI, hIne⟩ := classify_fst_digits str1
    have hD := classify_snd_digits str1
    have hform : formatIdrStr s o =
        '-' :: finishFmt o (classifyFmt str1).1 (classifyFmt str1).2 := by
      simp only [formatIdrStr]
      rw [if_pos hneg, if_pos hneg]
    set D := finishFmt o (classifyFmt str1).1 (classifyFmt str1).2 with hDdef
    rw [hform]
    simp only [formatIdr]
    rw [if_neg (by simp : ¬('-' :: D) = [])]
    have htrim : trim ('-' :: D) = '-' :: D := by
      refine trim_of_no_ws ?_
      intro c hc
      rcases List.mem_cons.mp hc with h | h
      · rw [h]; rfl
      · exact finish_no_ws hI hD c h
    have hstep : formatIdrStr ('-' :: D) o =
        '-' :: finishFmt o (classifyFmt D).1 (classifyFmt D).2 := by
      simp only [formatIdrStr]
      rw [htrim]
      rw [if_pos (by rfl : ('-' :: D).head? = some '-'),
        if_pos (by rfl : ('-' :: D).head? = some '-')]
      rfl
    rw [hstep, hDdef, finish_refinish o _ _ hI hD]
  · set str1 := trim s with hstr1
    obtain ⟨hI, hIne⟩ := classify_fst_digits str1
    have hD := classify_snd_digits str1
    have hform : formatIdrStr s o =
        finishFmt o (classifyFmt str1).1 (classifyFmt str1).2 := by
      simp only [formatIdrStr]
      rw [if_neg hneg, if_neg hneg]
    set D := finishFmt o (classifyFmt str1).1 (classifyFmt str1).2 with hDdef
    rw [hform]
    simp only [formatIdr]
    rw [if_neg (by rw [hDdef]; exact finish_ne_nil o _ _)]
    have htrim : trim D = D := by
      refine trim_of_no_ws ?_
      intro c hc
      rw [hDdef] at hc
      exact finish_no_ws hI hD c hc
    have hnneg : ¬ D.head? = some '-' := by
      intro hh
      have hcm : '-' ∈ D := by
        cases hD2 : D with
        | nil => rw [hD2] at hh; simp at hh
        | cons c t =>
          rw [hD2] at hh
          simp only [List.head?_cons, Option.some.injEq] at hh
          rw [hh]
          simp
      rw [hDdef] at hcm
      exact finish_not_minus hI hD '-' hcm rfl
    have hstep : formatIdrStr D o =
        finishFmt o (classifyFmt D).1 (classifyFmt D).2 := by
      simp only [formatIdrStr]
      rw [htrim, if_neg hnneg, if_neg hnneg]
    rw [hstep, hDdef, finish_refinish o _ _ hI hD]

theorem formatIdr_idem (v : IdrValue) (o : FormatIdrOptions) :
    formatIdr (.str (formatIdr v o)) o = formatIdr v o := by
  match v with
  | .none => rfl
  | .str s =>
    by_cases hs : s = []
    · subst hs; rfl
    · have h1 : formatIdr (.str s) o = formatIdrStr s o := by
        simp only [formatIdr]
        rw [if_neg hs]
      rw [h1]
      exact formatIdrStr_idem s o
  | .fixed fx =>
    have h1 : formatIdr (.fixed fx) o = formatIdrStr (fixedToString fx) o := by
      simp only [formatIdr]
      rw [if_neg (fixedToString_ne_nil fx)]
    rw [h1]
    exact formatIdrStr_idem _ o

/-! ### Claim theorems -/

/-- C1: the exact round trip claimed by the spec fails on the code.  The
text `"1,500"` parses exactly to sign 1, units 1500, scale 3 (the value
3/2).  Formatting that `FixedIdr` goes through its canonical string
`"1.500"`, which the formatter's thousands heuristic re-reads as the
integer 1500, so re-parsing yields scale 0 — sign and units survive but
the scale (and hence the value) does not. -/
theorem idr_c1_roundtrip_bug :
    parseIdrFixed (some ("1,500".toList)) =
      some { sign := 1, units := 1500, scale := 3 } ∧
    formatIdr (.fixed { sign := 1, units := 1500, scale := 3 }) {} =
      "1.500".toList ∧
    parseIdrFixed (some ("1.500".toList)) =
      some { sign := 1, units := 1500, scale := 0 } ∧
    (some { sign := 1, units := 1500, scale := 3 } : Option FixedIdr) ≠
      some { sign := 1, units := 1500, scale := 0 } := by
  refine ⟨by decide, by decide, by decide, by decide⟩

/-- C3: the grouping test of `formatIdr` is run on the input with only
whitespace removed, before other junk is discarded.  For `"Rp9.123"` the
spec-cleaned text `"9.123"` matches the thousands pattern, so the claim
demands a dot-grouped output with no decimal part, but the code outputs
`"9,123"` (decimal comma).  On junk-free inputs the heuristic behaves as
claimed: `"1.500"` stays grouped and `"12.34"` becomes `"12,34"`. -/
theorem idr_c3_heuristic_bug :
    thousandPattern (("Rp9.123".toList).filter
      (fun c => c.isDigit || c == '.' || c == ',')) = true ∧
    formatIdr (.str ("Rp9.123".toList)) {} = "9,123".toList ∧
    "9,123".toList ≠ "9.123".toList ∧
    formatIdr (.str ("1.500".toList)) {} = "1.500".toList ∧
    formatIdr (.str ("12.34".toList)) {} = "12,34".toList := by
  refine ⟨by decide, by decide, by decide, by decide, by decide⟩

/-- C5: characters outside `[0-9.,]` are NOT always discarded without
effect.  `"1.500"` is exactly `"Rp 1.500"` with the junk characters
removed, yet the two format differently: the thousands-pattern test sees
the `"Rp"` and fails, demoting the dot to a decimal point. -/
theorem idr_c5_junk_bug :
    ("Rp 1.500".toList).filter
      (fun c => c.isDigit || c == '.' || c == ',') = "1.500".toList ∧
    formatIdr (.str ("Rp 1.500".toList)) {} = "1,500".toList ∧
    formatIdr (.str ("1.500".toList)) {} = "1.500".toList ∧
    formatIdr (.str ("Rp 1.500".toList)) {} ≠
      formatIdr (.str ("1.500".toList)) {} := by
  refine ⟨by decide, by decide, by decide, by decide⟩

/-- C6 counterexample: `formatIdr "1.23.45"` is `"1,23"`; its decimal part
is `"23"`, not the claimed `"2345"` — the digits after the second dot are
discarded, not kept. -/
theorem idr_c6_counterexample :
    formatIdr (.str ("1.23.45".toList)) {} = "1,23".toList ∧
    afterSep ',' (formatIdr (.str ("1.23.45".toList)) {}) = "23".toList ∧
    "23".toList ≠ "2345".toList := by
  refine ⟨by decide, by decide, by decide⟩

/-- C7 counterexample: the input `"-"` is non-empty and cleans to no
digits, but `formatIdr` renders it as `"-0"`, not `"0"` — the leading
minus is re-attached even to the zero magnitude. -/
theorem idr_c7_counterexample :
    formatIdr (.str ("-".toList)) {} = "-0".toList ∧
    "-0".toList ≠ "0".toList := by
  refine ⟨by decide, by decide⟩

/-- C2: with `decimals = n`, `applyFixedDecimals` rounds the classified
`(integer digits, decimal digits)` pair to exactly `n` decimal digits by
round-half-up on the digit at position `n`, the carry propagating
arithmetically through the whole integer magnitude: the total digit value
of the output equals the value of the input truncated/padded to `n`
decimal digits plus the round-half-up carry, the decimal output has
exactly length `n` and is empty when `n = 0`.  At the `formatIdr` level,
`"999,99"` with 1 decimal gives `"1.000,0"` and with 0 decimals gives
`"1.000"`. -/
theorem idr_c2_fixed_rounding :
    (∀ (i d : List Char) (n : Nat),
      (∀ c ∈ i, c.isDigit = true) → (∀ c ∈ d, c.isDigit = true) →
      val ((applyFixedDecimals i d n).1 ++ (applyFixedDecimals i d n).2) =
        val (i ++ (d.take n ++ List.replicate (n - d.length) '0')) +
          roundHalfUpCarry d n ∧
      (applyFixedDecimals i d n).2.length = n ∧
      (n = 0 → (applyFixedDecimals i d n).2 = [])) ∧
    formatIdr (.str ("999,99".toList)) { decimals := some 1 } =
      "1.000,0".toList ∧
    formatIdr (.str ("999,99".toList)) { decimals := some 0 } =
      "1.000".toList := by
  refine ⟨?_, by decide, by decide⟩
  intro i d n hI hD
  refine ⟨afd_val i d n hI hD, afd_len i d n, ?_⟩
  intro h0
  subst h0
  rfl

/-- Witness for C2 at `i = "999"`, `d = "99"`, `n = 1`. -/
theorem idr_c2_witness :
    ((∀ c ∈ "999".toList, c.isDigit = true) ∧
      (∀ c ∈ "99".toList, c.isDigit = true)) ∧
    (val ((applyFixedDecimals "999".toList "99".toList 1).1 ++
        (applyFixedDecimals "999".toList "99".toList 1).2) =
      val ("999".toList ++ ("99".toList.take 1 ++
        List.replicate (1 - "99".toList.length) '0')) +
        roundHalfUpCarry "99".toList 1 ∧
      (applyFixedDecimals "999".toList "99".toList 1).2.length = 1 ∧
      (1 = 0 → (applyFixedDecimals "999".toList "99".toList 1).2 = [])) :=
  ⟨⟨by decide, by decide⟩,
    idr_c2_fixed_rounding.1 "999".toList "99".toList 1 (by decide)
      (by decide)⟩

/-- C4: on the parse path the thousands-vs-decimal heuristic is never
applied — `parseCore` (the shared pipeline of both parse modes) is
exactly the specification pipeline `parseIdrSpec` that removes all dots
unconditionally and takes the first comma as the decimal marker; in
particular `parseIdr("12.34")` is 1234 (units 1234 at scale 0 in exact
mode), not 12.34. -/
theorem idr_c4_parse_path :
    (∀ v, parseCore v = parseIdrSpec v) ∧
    parseIdrFixed (some ("12.34".toList)) =
      some { sign := 1, units := 1234, scale := 0 } ∧
    parseIdrNum (some ("12.34".toList)) = some 1234 := by
  refine ⟨parseCore_eq_spec, by decide, ?_⟩
  have hcore : parseCore (some ("12.34".toList)) =
      some (false, "1234".toList, []) := by decide
  have hv : val ("1234".toList) = 1234 := by decide
  simp only [parseIdrNum, hcore, hv, show val [] = 0 from rfl]
  norm_num

/-- C6 amended: in the decimal-dot branch the FIRST dot becomes the
decimal point, the decimal part is the digit run strictly between the
first and the second dot, and every digit after the second dot is
discarded (`split(".", 2)` keeps only the first two components):
formatting `a.b.c` (digit runs `a`, `b`, `c`) that fails the grouping
pattern yields grouped `a` with decimal part `b`; `c` is dropped. -/
theorem idr_c6_amended :
    ∀ a b c : List Char,
      (∀ e ∈ a, e.isDigit = true) → (∀ e ∈ b, e.isDigit = true) →
      (∀ e ∈ c, e.isDigit = true) →
      thousandPattern (a ++ '.' :: (b ++ '.' :: c)) = false →
      formatIdr (.str (a ++ '.' :: (b ++ '.' :: c))) {} =
        (if b = [] then groupThousandsStr (orZero a)
          else groupThousandsStr (orZero a) ++ ',' :: b) := by
  intro a b c ha hb hc hpat
  set s := a ++ '.' :: (b ++ '.' :: c) with hsdef
  have hmem : ∀ e ∈ s, e.isDigit = true ∨ e = '.' := by
    intro e he
    rw [hsdef] at he
    rcases List.mem_append.mp he with h | h
    · exact Or.inl (ha e h)
    · rcases List.mem_cons.mp h with h2 | h2
      · exact Or.inr h2
      · rcases List.mem_append.mp h2 with h3 | h3
        · exact Or.inl (hb e h3)
        · rcases List.mem_cons.mp h3 with h4 | h4
          · exact Or.inr h4
          · exact Or.inl (hc e h4)
  have hne : s ≠ [] := by
    rw [hsdef]
    intro he
    exact absurd (List.append_eq_nil.mp he).2 (by simp)
  have h1 : formatIdr (.str s) {} = formatIdrStr s {} := by
    simp only [formatIdr]
    rw [if_neg hne]
  have htrim : trim s = s := by
    refine trim_of_no_ws ?_
    intro e he
    rcases hmem e he with h | h
    · exact digit_not_ws h
    · rw [h]; rfl
  have hnneg : ¬ s.head? = some '-' := by
    intro hh
    have hm : '-' ∈ s := by
      cases hs2 : s with
      | nil => rw [hs2] at hh; simp at hh
      | cons e t =>
        rw [hs2] at hh
        simp only [List.head?_cons, Option.some.injEq] at hh
        rw [hh]
        simp
    rcases hmem '-' hm with h | h
    · exact absurd h (by decide)
    · exact absurd h (by decide)
  have hnc : ',' ∉ s := by
    intro hm
    rcases hmem ',' hm with h | h
    · exact absurd h (by decide)
    · exact absurd h (by decide)
  have hdotmem : '.' ∈ s := by
    rw [hsdef]
    exact List.mem_append.mpr (Or.inr (by simp))
  have hws : s.filter (fun c => !isWs c) = s := by
    refine List.filter_eq_self.mpr ?_
    intro e he
    rcases hmem e he with h | h
    · rw [digit_not_ws h]; rfl
    · rw [h]; rfl
  have hadot : '.' ∉ a := fun hm => absurd (ha '.' hm) (by decide)
  have hbdot : '.' ∉ b := fun hm => absurd (hb '.' hm) (by decide)
  have hclass : classifyFmt s = (orZero a, b) := by
    simp only [classifyFmt]
    rw [if_neg hnc, if_pos hdotmem, hws, if_neg (by simp [hpat]),
      hsdef, beforeSep_append hadot, afterSep_append hadot,
      beforeSep_append hbdot, filter_digits_self ha, filter_digits_self hb]
  rw [h1]
  simp only [formatIdrStr]
  rw [htrim, if_neg hnneg, if_neg hnneg, hclass]
  simp only [finishFmt]
  by_cases hbnil : b = []
  · rw [if_pos hbnil, if_pos hbnil]
  · rw [if_neg hbnil, if_neg hbnil]
    rfl

/-- Witness for C6 amended at `a = "1"`, `b = "23"`, `c = "45"`. -/
theorem idr_c6_witness :
    ((∀ e ∈ "1".toList, e.isDigit = true) ∧
      (∀ e ∈ "23".toList, e.isDigit = true) ∧
      (∀ e ∈ "45".toList, e.isDigit = true) ∧
      thousandPattern ("1".toList ++ '.' :: ("23".toList ++ '.' ::
        "45".toList)) = false) ∧
    formatIdr (.str ("1".toList ++ '.' :: ("23".toList ++ '.' ::
        "45".toList))) {} =
      (if "23".toList = [] then groupThousandsStr (orZero "1".toList)
        else groupThousandsStr (orZero "1".toList) ++ ',' :: "23".toList) :=
  ⟨⟨by decide, by decide, by decide, by decide⟩,
    idr_c6_amended "1".toList "23".toList "45".toList (by decide)
      (by decide) (by decide) (by decide)⟩

/-- C7 amended: a non-empty input that cleans to no digits parses to
`null` in both modes; formatting renders the zero magnitude `"0"` and
re-attaches a leading minus when (after trimming) the input starts with
one, giving `"-0"` in that case and `"0"` otherwise.  Absent or empty
input formats to `""` and parses to `null`. -/
theorem idr_c7_amended :
    (∀ s : List Char, s ≠ [] → s.filter Char.isDigit = [] →
      parseIdrFixed (some s) = none ∧ parseIdrNum (some s) = none ∧
      formatIdr (.str s) {} =
        (if (trim s).head? = some '-' then "-0".toList else "0".toList)) ∧
    formatIdr (.str []) {} = [] ∧ formatIdr .none {} = [] ∧
    parseIdrFixed (some []) = none ∧ parseIdrFixed none = none ∧
    parseIdrNum none = none := by
  refine ⟨?_, rfl, rfl, rfl, rfl, rfl⟩
  intro s hne hdig
  refine ⟨parseIdrFixed_digitless hdig, parseIdrNum_digitless hdig, ?_⟩
  have h1 : formatIdr (.str s) {} = formatIdrStr s {} := by
    simp only [formatIdr]
    rw [if_neg hne]
  rw [h1, formatIdrStr_digitless hdig]
  rfl

/-- Witness for C7 at the input `"abc"`. -/
theorem idr_c7_witness :
    ("abc".toList ≠ [] ∧ ("abc".toList).filter Char.isDigit = []) ∧
    (parseIdrFixed (some ("abc".toList)) = none ∧
      parseIdrNum (some ("abc".toList)) = none ∧
      formatIdr (.str ("abc".toList)) {} =
        (if (trim ("abc".toList)).head? = some '-' then "-0".toList
          else "0".toList)) :=
  ⟨⟨by decide, by decide⟩,
    idr_c7_amended.1 "abc".toList (by decide) (by decide)⟩

/-- C8: with `decimals = "auto"` and `padZeros = true`, a present decimal
part is padded with trailing zeros up to length 2 (to length
`max |d| 2`), and when the classification yields no decimal digits the
output has no comma at all; e.g. `"1050,5"` formats to `"1.050,50"`. -/
theorem idr_c8_padZeros :
    (∀ (s p1 p2 : List Char), s ≠ [] →
      classifyFmt (if (trim s).head? = some '-' then (trim s).tail
        else trim s) = (p1, p2) →
      (p2 = [] →
        formatIdr (.str s) { padZeros := true } =
          (if (trim s).head? = some '-' then '-' :: groupThousandsStr p1
            else groupThousandsStr p1) ∧
        ',' ∉ formatIdr (.str s) { padZeros := true }) ∧
      (p2 ≠ [] →
        formatIdr (.str s) { padZeros := true } =
          (if (trim s).head? = some '-'
            then '-' :: (groupThousandsStr p1 ++ ',' :: padEnd p2 2 '0')
            else groupThousandsStr p1 ++ ',' :: padEnd p2 2 '0') ∧
        (padEnd p2 2 '0').length = max p2.length 2)) ∧
    formatIdr (.str ("1050,5".toList)) { padZeros := true } =
      "1.050,50".toList := by
  refine ⟨?_, by decide⟩
  intro s p1 p2 hne hcl
  have hp1d : ∀ c ∈ p1, c.isDigit = true := by
    have h := (classify_fst_digits (if (trim s).head? = some '-'
      then (trim s).tail else trim s)).1
    rw [hcl] at h
    exact h
  have h1 : formatIdr (.str s) { padZeros := true } =
      formatIdrStr s { padZeros := true } := by
    simp only [formatIdr]
    rw [if_neg hne]
  have h2 : formatIdrStr s { padZeros := true } =
      (if (trim s).head? = some '-'
        then '-' :: finishFmt { padZeros := true } p1 p2
        else finishFmt { padZeros := true } p1 p2) := by
    simp only [formatIdrStr, hcl]
  constructor
  · intro hp2
    subst hp2
    have hfin : finishFmt { padZeros := true } p1 [] =
        groupThousandsStr p1 := by
      simp [finishFmt]
    constructor
    · rw [h1, h2, hfin]
    · rw [h1, h2, hfin]
      intro hmem
      by_cases hneg : (trim s).head? = some '-'
      · rw [if_pos hneg] at hmem
        rcases List.mem_cons.mp hmem with h | h
        · exact absurd h (by decide)
        · exact group_no_comma hp1d h
      · rw [if_neg hneg] at hmem
        exact group_no_comma hp1d hmem
  · intro hp2
    have hfin : finishFmt { padZeros := true } p1 p2 =
        groupThousandsStr p1 ++ ',' :: padEnd p2 2 '0' := by
      simp only [finishFmt]
      rw [if_neg hp2, if_true]
    refine ⟨by rw [h1, h2, hfin], padEnd_length p2 2⟩

/-- Witness for C8 at the input `"1050,5"`. -/
theorem idr_c8_witness :
    ("1050,5".toList ≠ [] ∧
      classifyFmt (if (trim ("1050,5".toList)).head? = some '-'
        then (trim ("1050,5".toList)).tail else trim ("1050,5".toList)) =
        ("1050".toList, "5".toList) ∧ "5".toList ≠ []) ∧
    (formatIdr (.str ("1050,5".toList)) { padZeros := true } =
      (if (trim ("1050,5".toList)).head? = some '-'
        then '-' :: (groupThousandsStr ("1050".toList) ++
          ',' :: padEnd ("5".toList) 2 '0')
        else groupThousandsStr ("1050".toList) ++
          ',' :: padEnd ("5".toList) 2 '0') ∧
      (padEnd ("5".toList) 2 '0').length = max ("5".toList).length 2) :=
  ⟨⟨by decide, by decide, by decide⟩,
    (idr_c8_padZeros.1 "1050,5".toList "1050".toList "5".toList
      (by decide) (by decide)).2 (by decide)⟩

/-- C9: `formatIdr` is idempotent — formatting the formatted output again
with the same options returns it unchanged, for every input value
(`null`, string, or `FixedIdr`; a number input is stringified by the
source and follows the string path) and every options record. -/
theorem idr_c9_idempotent :
    ∀ (v : IdrValue) (o : FormatIdrOptions),
      formatIdr (.str (formatIdr v o)) o = formatIdr v o :=
  formatIdr_idem

/-- C10: an input that starts with a minus and cleans to no digits
formats to `"-0"` (the minus is re-attached to the zero magnitude) while
both parse modes return `null` on it. -/
theorem idr_c10_minus_zero :
    ∀ s : List Char, s.head? = some '-' → s.filter Char.isDigit = [] →
      formatIdr (.str s) {} = "-0".toList ∧
      parseIdrFixed (some s) = none ∧ parseIdrNum (some s) = none := by
  intro s hh hdig
  have hne : s ≠ [] := by
    intro he
    rw [he] at hh
    simp at hh
  refine ⟨?_, parseIdrFixed_digitless hdig, parseIdrNum_digitless hdig⟩
  have h1 : formatIdr (.str s) {} = formatIdrStr s {} := by
    simp only [formatIdr]
    rw [if_neg hne]
  rw [h1, formatIdrStr_digitless hdig, if_pos (trim_head_minus hh)]
  rfl

/-- Witness for C10 at the input `"-abc"`. -/
theorem idr_c10_witness :
    (("-abc".toList).head? = some '-' ∧
      ("-abc".toList).filter Char.isDigit = []) ∧
    (formatIdr (.str ("-abc".toList)) {} = "-0".toList ∧
      parseIdrFixed (some ("-abc".toList)) = none ∧
      parseIdrNum (some ("-abc".toList)) = none) :=
  ⟨⟨by decide, by decide⟩,
    idr_c10_minus_zero "-abc".toList (by decide) (by decide)⟩

end Idr
